import Mathlib

/-!
Verification of the CS-480 mini-translator repository.

The development shallowly embeds, in Lean 4:

* the chained hash table of `assignment-2/hash/hash.h` / `hash.c`
  (structures `association` / `hash`, the DJB hash, `hash_insert`,
  `hash_get`, `hash_contains`, `_hash_resize`, and the iterator
  `hash_iter_create` / `_update_hash_iter_next` / `hash_iter_next`);
* the bison grammar actions of the translator (`parser.y`): the
  synthesized string fragments of every production, the symbol table
  updates, the diagnostic messages and the `_error` flag, and the
  emission logic of `main`.

Machine integers are modelled as `Nat` with explicit `% 2 ^ 64` /
`% 2 ^ 32` where the C code relies on unsigned wrap-around; C strings
are `String` (the keys of this program are ASCII identifier names, for
which UTF-8 bytes and code points agree); `NULL` results are `Option`.
-/

namespace CS480

/-! ## Hash table: data representation

`struct association` is a key/value pair; a C bucket chain (a linked
list of `association` nodes) is a `List (Association V)`; the table
array `struct association** table` of length `capacity` is a
`List (List (Association V))` whose length is the capacity.  The value
payload `void*` is a type parameter `V`. -/

structure Association (V : Type) where
  key : String
  value : V
deriving DecidableEq, Repr

structure Hash (V : Type) where
  table : List (List (Association V))
  num_elems : Nat
deriving DecidableEq, Repr

variable {V : Type}

/-- The `capacity` field of `struct hash`; in this embedding it is the
length of the table array (the C code keeps the two in sync). -/
def Hash.capacity (h : Hash V) : Nat := h.table.length

/-- `#define INITIAL_CAPACITY 128` -/
def INITIAL_CAPACITY : Nat := 128

/-- `#define LOAD_FACTOR_THR 5` -/
def LOAD_FACTOR_THR : Nat := 5

/-- `_hash_table_init`: a fresh table array of `capacity` NULL buckets
with `num_elems = 0`. -/
def _hash_table_init (V : Type) (capacity : Nat) : Hash V :=
  { table := List.replicate capacity [], num_elems := 0 }

/-- `hash_create`: a fresh table with the initial capacity. -/
def hash_create (V : Type) : Hash V := _hash_table_init V INITIAL_CAPACITY

/-- `_hash_load_factor`: `num_elems / (float)capacity`, modelled exactly
as a rational (the quantities involved are small enough that the C
`float` comparison against the threshold is exact). -/
def _hash_load_factor (h : Hash V) : ℚ := (h.num_elems : ℚ) / (h.capacity : ℚ)

/-- `_djb_hash`: `hash = hash * 33 + c` over the bytes of the key,
starting from 5381, on a 64-bit `unsigned long`, finally truncated to
`unsigned int`.  Keys in this program are ASCII, so code points and
UTF-8 bytes coincide. -/
def _djb_hash (key : String) : Nat :=
  (key.data.foldl (fun h c => (h * 33 + c.toNat) % 2 ^ 64) 5381) % 2 ^ 32

/-- Bucket index of a key: `_djb_hash(key) % capacity`. -/
def _bucket_idx (cap : Nat) (key : String) : Nat := _djb_hash key % cap

/-- The chain walk shared by `hash_get` / `hash_contains` /
`hash_insert`'s search loop: the first association in the chain whose
key is `strcmp`-equal to `key`. -/
def _chain_find (key : String) : List (Association V) → Option (Association V)
  | [] => none
  | a :: rest => if key = a.key then some a else _chain_find key rest

/-- The update half of `hash_insert`'s search loop: if the key occurs
in the chain, overwrite the `value` field of the first matching node
(keeping its `key`), else report `none`. -/
def _chain_update (key : String) (v : V) :
    List (Association V) → Option (List (Association V))
  | [] => none
  | a :: rest =>
    if key = a.key then some ({ key := a.key, value := v } :: rest)
    else (_chain_update key v rest).map (a :: ·)

/-- The body of `hash_insert` after the resize check: find the key in
its bucket; on a hit overwrite the value in place, on a miss allocate a
new association at the head of the bucket chain and bump `num_elems`. -/
def _hash_insert_no_resize (h : Hash V) (key : String) (v : V) : Hash V :=
  let idx := _bucket_idx h.capacity key
  let chain := h.table.getD idx []
  match _chain_update key v chain with
  | some chain2 => { table := h.table.set idx chain2, num_elems := h.num_elems }
  | none =>
    { table := h.table.set idx ({ key := key, value := v } :: chain),
      num_elems := h.num_elems + 1 }

/-- `_hash_resize`: re-initialize with twice the capacity and re-insert
every association of the old table, buckets in index order, each chain
from its head.  In C the rehash calls `hash_insert`; its resize guard
can never fire during the rehash (the capacity was just doubled — this
is the source comment's "by definition, this will not cause a recursive
call", proved below as `_resize_guard_not_fired`), so the rehash is
embedded with the guard-free insert. -/
def _hash_resize (h : Hash V) : Hash V :=
  h.table.foldl
    (fun acc chain =>
      chain.foldl (fun acc a => _hash_insert_no_resize acc a.key a.value) acc)
    (_hash_table_init V (h.capacity * 2))

/-- `hash_insert`: double the capacity first if the load factor exceeds
the threshold, then insert or update. -/
def hash_insert (h : Hash V) (key : String) (v : V) : Hash V :=
  let h :=
    if _hash_load_factor h > (LOAD_FACTOR_THR : ℚ) then _hash_resize h else h
  _hash_insert_no_resize h key v

/-- `hash_get`: the value stored for `key`, or `none` (NULL) if the key
is absent from its bucket chain. -/
def hash_get (h : Hash V) (key : String) : Option V :=
  (_chain_find key (h.table.getD (_bucket_idx h.capacity key) [])).map (·.value)

/-- `hash_contains`: 1 (`true`) iff the key occurs in its bucket chain. -/
def hash_contains (h : Hash V) (key : String) : Bool :=
  (_chain_find key (h.table.getD (_bucket_idx h.capacity key) [])).isSome

/-! ## Hash table: iterator -/

/-- `struct hash_iter`.  The C `next` pointer into a chain is modelled
as the suffix of that chain starting at the pointed-to node; `[]` is
NULL.  `next_idx` starts at `-1`, hence `Int`. -/
structure HashIter (V : Type) where
  hash : Hash V
  next : List (Association V)
  next_idx : Int

/-- The bucket scan loop of `_update_hash_iter_next`:
`while (i < capacity && table[i] == NULL) i++;` starting at `i`,
returning the first index of a non-NULL bucket, if any. -/
def _scan_buckets (t : List (List (Association V))) (i : Nat) : Option Nat :=
  if _h : i < t.length then
    match t.getD i [] with
    | [] => _scan_buckets t (i + 1)
    | _ :: _ => some i
  else none
termination_by t.length - i

/-- `_update_hash_iter_next`: advance within the current chain; when
the chain is exhausted, scan forward for the next non-empty bucket. -/
def _update_hash_iter_next (iter : HashIter V) : HashIter V :=
  let nxt := iter.next.tail
  match _h : nxt with
  | [] =>
    match _scan_buckets iter.hash.table (iter.next_idx + 1).toNat with
    | some i =>
      { iter with next_idx := i, next := iter.hash.table.getD i [] }
    | none => { iter with next := [] }
  | _ :: _ => { iter with next := nxt }

/-- `hash_iter_create`: start before bucket 0 and advance once. -/
def hash_iter_create (h : Hash V) : HashIter V :=
  _update_hash_iter_next { hash := h, next := [], next_idx := -1 }

/-- `hash_iter_has_next`: `iter->next != NULL`. -/
def hash_iter_has_next (iter : HashIter V) : Bool := !iter.next.isEmpty

/-- `hash_iter_next`: return the current association's value (and key,
through `key_ptr`) and advance.  The C code asserts `iter->next`;
the NULL case is modelled as `none`. -/
def hash_iter_next (iter : HashIter V) : Option (V × String) × HashIter V :=
  match iter.next with
  | [] => (none, iter)
  | a :: _ => (some (a.value, a.key), _update_hash_iter_next iter)

/-- Total number of associations stored in the table array. -/
def _total_elems (t : List (List (Association V))) : Nat :=
  (t.map List.length).sum

/-- Repeatedly call `hash_iter_next` while `hash_iter_has_next`, with
explicit fuel, collecting the `(key, value)` pairs in order. -/
def _drain : Nat → HashIter V → List (String × V)
  | 0, _ => []
  | fuel + 1, iter =>
    if hash_iter_has_next iter then
      match hash_iter_next iter with
      | (some (v, k), iter2) => (k, v) :: _drain fuel iter2
      | (none, _) => []
    else []

/-- One full iterator pass over a table: create an iterator and drain
it (the table holds `_total_elems` associations, which is exactly the
fuel a full pass needs). -/
def hash_iter_drain (h : Hash V) : List (String × V) :=
  _drain (_total_elems h.table) (hash_iter_create h)

/-! ## Sequences of insertions -/

/-- Run a sequence of `hash_insert` calls, in order, on a freshly
created table. -/
def runInserts (ops : List (String × V)) : Hash V :=
  ops.foldl (fun h p => hash_insert h p.1 p.2) (hash_create V)

/-- The value of the most recent insertion with key `k` in the
sequence, if any. -/
def lastInserted (ops : List (String × V)) (k : String) : Option V :=
  ops.foldl (fun acc p => if p.1 = k then some p.2 else acc) none

/-! ## Literal formatting: the INTEGER / FLOAT / BOOLEAN actions -/

/-- Decimal digits of the fraction `num / den` (with `num < den`),
most significant first, stopping when the remainder is zero (the
behaviour of `%g` on the terminating decimals this translator prints),
with explicit fuel. -/
def _digits_loop (num den : Nat) : Nat → String
  | 0 => ""
  | fuel + 1 =>
    if num = 0 then ""
    else
      let n10 := num * 10
      (Nat.digitChar (n10 / den)).toString ++ _digits_loop (n10 % den) den fuel

/-- The `%g` rendering of a numeric payload: shortest decimal form, on
the domain this translator prints (non-negative terminating decimals
small enough that `%g` uses no exponent form): the integer part, then
the fractional digits when there are any. -/
def _fmt_g (q : ℚ) : String :=
  if q.den = 1 then toString q.num
  else
    toString (q.num.toNat / q.den) ++ "." ++
      _digits_loop (q.num.toNat % q.den) q.den 20

/-- The `%.1f` rendering used by the FLOAT action; the guard
`(int)$1 == $1` ensures it only ever runs on integral values, which it
prints as the integer followed by ".0". -/
def _fmt_f1 (q : ℚ) : String := toString q.num ++ ".0"

/-- The `INTEGER` action: `asprintf(&$$, "%g", $1)` — unconditionally
`%g`. -/
def _render_INTEGER (v : ℚ) : String := _fmt_g v

/-- The `FLOAT` action:
`((int)$1 == $1) ? asprintf(&$$, "%.1f", $1) : asprintf(&$$, "%g", $1)`.
A float equals its own integer truncation exactly when it is an
integer, i.e. when its denominator is 1. -/
def _render_FLOAT (v : ℚ) : String := if v.den = 1 then _fmt_f1 v else _fmt_g v

/-- The `BOOLEAN` action: `strdup(strcmp($1, "True") ? "0" : "1")`. -/
def _render_BOOLEAN (s : String) : String := if s = "True" then "1" else "0"

/-! ## The translator: parse-tree shapes of the grammar

Each constructor is one production of the bison grammar; evaluating a
constructor runs exactly that production's semantic action, with
children evaluated first, left to right, as an LALR parser reduces
them.  The two error-production constructors model the paths the
claims exercise: `ifMissingColon` is `IF expression NEWLINE`
(a `PARSE_ERROR` action: print, set `_error`, `YYERROR`), and
`genericError` is a region where bison detected a generic syntax error
(reported through `yyerror`, which prints but does not touch `_error`)
and recovered through `statement : error NEWLINE`, whose action is
empty, leaving the statement's semantic value unset. -/

inductive Expr where
  | paren (e : Expr)
  | plus (a b : Expr)
  | minus (a b : Expr)
  | times (a b : Expr)
  | dividedby (a b : Expr)
  | eq (a b : Expr)
  | neq (a b : Expr)
  | gt (a b : Expr)
  | gte (a b : Expr)
  | lt (a b : Expr)
  | lte (a b : Expr)
  | integer (v : ℚ)
  | float (v : ℚ)
  | boolean (s : String)
  | ident (name : String) (line : Nat)
deriving DecidableEq, Repr

mutual
inductive Stmt where
  | assign (name : String) (e : Expr) (line : Nat) : Stmt
  | ifOnly (cond : Expr) (body : StmtList) : Stmt
  | ifElifElse (cond : Expr) (body : StmtList) (elifs : ElifBlock)
      (els : StmtList) : Stmt
  | ifElif (cond : Expr) (body : StmtList) (elifs : ElifBlock) : Stmt
  | ifElse (cond : Expr) (body : StmtList) (els : StmtList) : Stmt
  | whileStmt (cond : Expr) (body : StmtList) : Stmt
  | breakStmt : Stmt
  | ifMissingColon (cond : Expr) (line : Nat) : Stmt
  | genericError (msg : String) : Stmt
deriving DecidableEq, Repr

inductive StmtList where
  | single (s : Stmt) : StmtList
  | snoc (l : StmtList) (s : Stmt) : StmtList
deriving DecidableEq, Repr

inductive ElifBlock where
  | one (cond : Expr) (body : StmtList) : ElifBlock
  | snoc (rest : ElifBlock) (cond : Expr) (body : StmtList) : ElifBlock
deriving DecidableEq, Repr
end

/-- The run-scoped state of the translator: the `symbols` hash map
(values are the `char*` fragments stored by assignments, `none`
standing for an unset/garbage semantic value), the `_error` flag, and
the stderr diagnostic lines in emission order. -/
structure TState where
  symbols : Hash (Option String)
  _error : Bool
  diags : List String
deriving DecidableEq, Repr

/-- `asprintf` composition of two semantic values: when either operand
is unset (a grammar action that ran `YYERROR` or a failed identifier
lookup leaves `$$` unset), the result is unset. -/
def _frag2 (a b : Option String) (f : String → String → String) : Option String :=
  match a, b with
  | some a, some b => some (f a b)
  | _, _ => none

/-- The `expression` actions.  Children are evaluated left to right;
the returned option is the synthesized fragment. -/
def evalExpr : TState → Expr → TState × Option String
  | st, .paren e =>
    let r := evalExpr st e
    (r.1, r.2.map (fun s => "(" ++ s ++ ")"))
  | st, .plus a b =>
    let ra := evalExpr st a
    let rb := evalExpr ra.1 b
    (rb.1, _frag2 ra.2 rb.2 (fun x y => x ++ " + " ++ y))
  | st, .minus a b =>
    let ra := evalExpr st a
    let rb := evalExpr ra.1 b
    (rb.1, _frag2 ra.2 rb.2 (fun x y => x ++ " - " ++ y))
  | st, .times a b =>
    let ra := evalExpr st a
    let rb := evalExpr ra.1 b
    (rb.1, _frag2 ra.2 rb.2 (fun x y => x ++ " * " ++ y))
  | st, .dividedby a b =>
    let ra := evalExpr st a
    let rb := evalExpr ra.1 b
    (rb.1, _frag2 ra.2 rb.2 (fun x y => x ++ " / " ++ y))
  | st, .eq a b =>
    let ra := evalExpr st a
    let rb := evalExpr ra.1 b
    (rb.1, _frag2 ra.2 rb.2 (fun x y => x ++ " == " ++ y))
  | st, .neq a b =>
    let ra := evalExpr st a
    let rb := evalExpr ra.1 b
    (rb.1, _frag2 ra.2 rb.2 (fun x y => x ++ " != " ++ y))
  | st, .gt a b =>
    let ra := evalExpr st a
    let rb := evalExpr ra.1 b
    (rb.1, _frag2 ra.2 rb.2 (fun x y => x ++ " > " ++ y))
  | st, .gte a b =>
    let ra := evalExpr st a
    let rb := evalExpr ra.1 b
    (rb.1, _frag2 ra.2 rb.2 (fun x y => x ++ " >= " ++ y))
  | st, .lt a b =>
    let ra := evalExpr st a
    let rb := evalExpr ra.1 b
    (rb.1, _frag2 ra.2 rb.2 (fun x y => x ++ " < " ++ y))
  | st, .lte a b =>
    let ra := evalExpr st a
    let rb := evalExpr ra.1 b
    (rb.1, _frag2 ra.2 rb.2 (fun x y => x ++ " <= " ++ y))
  | st, .integer v => (st, some (_render_INTEGER v))
  | st, .float v => (st, some (_render_FLOAT v))
  | st, .boolean s => (st, some (_render_BOOLEAN s))
  | st, .ident name line =>
    if hash_contains st.symbols name then (st, some (name))
    else
      ({ st with
          diags := st.diags ++
            ["Error: Invalid Symbol (" ++ name ++ ") on line " ++ toString line],
          _error := true }, none)

mutual
/-- The `statement`-level actions.  `.ok f` is a normally reduced
statement with fragment `f`; `.error ()` is a `PARSE_ERROR` action
(which runs `YYERROR`, sending the parser into the
`statement : error NEWLINE` recovery whose action leaves the value
unset). -/
def evalStmt : TState → Stmt → TState × Except Unit (Option String)
  | st, .assign name e _line =>
    let r := evalExpr st e
    ({ r.1 with symbols := hash_insert r.1.symbols name r.2 },
      .ok (r.2.map (fun s => name ++ " = " ++ s ++ ";\n")))
  | st, .ifOnly cond body =>
    let rc := evalExpr st cond
    let rb := evalStmtList rc.1 body
    (rb.1, .ok (_frag2 rc.2 rb.2
      (fun c b => "if (" ++ c ++ ") \x7b\n" ++ b ++ "\x7d\n")))
  | st, .ifElifElse cond body elifs els =>
    let rc := evalExpr st cond
    let rb := evalStmtList rc.1 body
    let re := evalElifs rb.1 elifs
    let rl := evalStmtList re.1 els
    (rl.1, .ok
      (match rc.2, rb.2, re.2, rl.2.map (fun b => "else \x7b\n" ++ b ++ "\x7d\n") with
        | some c, some b, some e, some l =>
          some ("if (" ++ c ++ ") \x7b\n" ++ b ++ "\x7d " ++ e ++ " " ++ l)
        | _, _, _, _ => none))
  | st, .ifElif cond body elifs =>
    let rc := evalExpr st cond
    let rb := evalStmtList rc.1 body
    let re := evalElifs rb.1 elifs
    (re.1, .ok
      (match rc.2, rb.2, re.2 with
        | some c, some b, some e =>
          some ("if (" ++ c ++ ") \x7b\n" ++ b ++ "\x7d " ++ e)
        | _, _, _ => none))
  | st, .ifElse cond body els =>
    let rc := evalExpr st cond
    let rb := evalStmtList rc.1 body
    let rl := evalStmtList rb.1 els
    (rl.1, .ok
      (match rc.2, rb.2, rl.2.map (fun b => "else \x7b\n" ++ b ++ "\x7d\n") with
        | some c, some b, some l =>
          some ("if (" ++ c ++ ") \x7b\n" ++ b ++ "\x7d " ++ l)
        | _, _, _ => none))
  | st, .whileStmt cond body =>
    let rc := evalExpr st cond
    let rb := evalStmtList rc.1 body
    (rb.1, .ok (_frag2 rc.2 rb.2
      (fun c b => "while (" ++ c ++ ") \x7b\n" ++ b ++ "\x7d\n")))
  | st, .breakStmt => (st, .ok (some ("break;\n")))
  | st, .ifMissingColon cond line =>
    let rc := evalExpr st cond
    ({ rc.1 with
        diags := rc.1.diags ++
          ["Error: Missing colon after 'if' statement on line " ++ toString line],
        _error := true }, .error ())
  | st, .genericError msg =>
    ({ st with diags := st.diags ++ ["Error: " ++ msg] }, .ok none)

/-- The `statement_list` actions: a single statement passes its value
through; `statement_list statement` concatenates
(`asprintf("%s%s", $1, $2)`). -/
def evalStmtList : TState → StmtList → TState × Option String
  | st, .single s =>
    let r := evalStmt st s
    (r.1, match r.2 with | .ok f => f | .error _ => none)
  | st, .snoc l s =>
    let rl := evalStmtList st l
    let rs := evalStmt rl.1 s
    (rs.1, _frag2 rl.2 (match rs.2 with | .ok f => f | .error _ => none)
      (fun x y => x ++ y))

/-- The `elif_block` actions. -/
def evalElifs : TState → ElifBlock → TState × Option String
  | st, .one cond body =>
    let rc := evalExpr st cond
    let rb := evalStmtList rc.1 body
    (rb.1, _frag2 rc.2 rb.2
      (fun c b => "else if (" ++ c ++ ") \x7b\n" ++ b ++ "\x7d"))
  | st, .snoc rest cond body =>
    let rr := evalElifs st rest
    let rc := evalExpr rr.1 cond
    let rb := evalStmtList rc.1 body
    (rb.1, match rr.2, rc.2, rb.2 with
      | some r, some c, some b =>
        some (r ++ " else if (" ++ c ++ ") \x7b\n" ++ b ++ "\x7d")
      | _, _, _ => none)
end

/-- The state a run starts from: a fresh symbol table, a clear failure
flag, no diagnostics. -/
def initialTState : TState :=
  { symbols := hash_create (Option String), _error := false, diags := [] }

/-- The `program : statement_list` action: store the whole translated
body under the reserved key "program". -/
def translateProgram (prog : StmtList) : TState :=
  let r := evalStmtList initialTState prog
  { r.1 with symbols := hash_insert r.1.symbols "program" r.2 }

/-- The keys enumerated by each of `main`'s two emission loops: one
iterator pass, skipping the reserved key "program".  Both loops create
a fresh iterator over the unmutated table, so both enumerate this same
sequence. -/
def emitDeclKeys (symbols : Hash (Option String)) : List String :=
  ((hash_iter_drain symbols).map Prod.fst).filter (fun k => k ≠ "program")

/-- The standard-output text of `main`'s success path: preamble,
declarations, the "program" fragment, per-variable prints, close. -/
def emitText (symbols : Hash (Option String)) : String :=
  "#include <stdio.h>\n" ++ "int main() \x7b\n" ++
    String.join ((emitDeclKeys symbols).map (fun k => "double " ++ k ++ ";\n")) ++
    "\n/* Begin Program */\n\n" ++
    (match hash_get symbols "program" with
      | some (some s) => s
      | _ => "") ++
    "\n/* End Program */\n\n" ++
    String.join ((emitDeclKeys symbols).map
      (fun k => "printf(\"" ++ k ++ ": %lf\\n\", " ++ k ++ ");\n")) ++
    "\x7d\n"

/-- The body of `main` after the token stream is exhausted.  Modelled
from the spec: the external scanner (whose source is not part of this
snapshot) drives the push parser from inside `yylex` and returns 0
exactly when the engine reached its accepting state, so `accepted`
stands for `!yylex()`.  The result is the pair
(standard-output text, exit status). -/
def runMain (accepted : Bool) (st : TState) : String × Nat :=
  if accepted && !st._error then (emitText st.symbols, 0) else ("", 1)

/-! ## Well-formed inputs: the checker for claim C1

`exprOK S e` says every identifier referenced by `e` is in `S`;
the statement-level checkers additionally reject the error
productions, and thread the set of assigned names in exactly the
order the grammar actions update the symbol table. -/

def exprOK (S : List String) : Expr → Bool
  | .paren e => exprOK S e
  | .plus a b => exprOK S a && exprOK S b
  | .minus a b => exprOK S a && exprOK S b
  | .times a b => exprOK S a && exprOK S b
  | .dividedby a b => exprOK S a && exprOK S b
  | .eq a b => exprOK S a && exprOK S b
  | .neq a b => exprOK S a && exprOK S b
  | .gt a b => exprOK S a && exprOK S b
  | .gte a b => exprOK S a && exprOK S b
  | .lt a b => exprOK S a && exprOK S b
  | .lte a b => exprOK S a && exprOK S b
  | .integer _ => true
  | .float _ => true
  | .boolean _ => true
  | .ident name _ => decide (name ∈ S)

mutual
def stmtOK : List String → Stmt → Bool × List String
  | S, .assign name e _ => (exprOK S e, name :: S)
  | S, .ifOnly c b =>
    let rb := stmtListOK S b
    (exprOK S c && rb.1, rb.2)
  | S, .ifElifElse c b e l =>
    let rb := stmtListOK S b
    let re := elifsOK rb.2 e
    let rl := stmtListOK re.2 l
    (exprOK S c && rb.1 && re.1 && rl.1, rl.2)
  | S, .ifElif c b e =>
    let rb := stmtListOK S b
    let re := elifsOK rb.2 e
    (exprOK S c && rb.1 && re.1, re.2)
  | S, .ifElse c b l =>
    let rb := stmtListOK S b
    let rl := stmtListOK rb.2 l
    (exprOK S c && rb.1 && rl.1, rl.2)
  | S, .whileStmt c b =>
    let rb := stmtListOK S b
    (exprOK S c && rb.1, rb.2)
  | S, .breakStmt => (true, S)
  | S, .ifMissingColon _ _ => (false, S)
  | S, .genericError _ => (false, S)

def stmtListOK : List String → StmtList → Bool × List String
  | S, .single s => stmtOK S s
  | S, .snoc l s =>
    let rl := stmtListOK S l
    let rs := stmtOK rl.2 s
    (rl.1 && rs.1, rs.2)

def elifsOK : List String → ElifBlock → Bool × List String
  | S, .one c b =>
    let rb := stmtListOK S b
    (exprOK S c && rb.1, rb.2)
  | S, .snoc rest c b =>
    let rr := elifsOK S rest
    let rb := stmtListOK rr.2 b
    (rr.1 && exprOK rr.2 c && rb.1, rb.2)
end

mutual
/-- The identifiers assigned anywhere in a statement, in source
order. -/
def stmtAssigned : Stmt → List String
  | .assign name _ _ => [name]
  | .ifOnly _ b => stmtListAssigned b
  | .ifElifElse _ b e l =>
    stmtListAssigned b ++ elifsAssigned e ++ stmtListAssigned l
  | .ifElif _ b e => stmtListAssigned b ++ elifsAssigned e
  | .ifElse _ b l => stmtListAssigned b ++ stmtListAssigned l
  | .whileStmt _ b => stmtListAssigned b
  | .breakStmt => []
  | .ifMissingColon _ _ => []
  | .genericError _ => []

def stmtListAssigned : StmtList → List String
  | .single s => stmtAssigned s
  | .snoc l s => stmtListAssigned l ++ stmtAssigned s

def elifsAssigned : ElifBlock → List String
  | .one _ b => stmtListAssigned b
  | .snoc rest _ b => elifsAssigned rest ++ stmtListAssigned b
end

/-- Concatenation of statement lists (the first list becomes the
prefix of the second's spine). -/
def StmtList.appendList : StmtList → StmtList → StmtList
  | l, .single s => .snoc l s
  | l, .snoc r s => .snoc (l.appendList r) s

/-! ## Concrete inputs used by the claims -/

/-- The parse tree of the malformed input `if x > 5\n`: the expression
`x > 5` reduces first (checking `x` against the symbol table), then
the error production `IF expression NEWLINE` fires. -/
def progC8 : StmtList :=
  .single (.ifMissingColon (.gt (.ident "x" 1) (.integer 5)) 1)

/-- A program whose first statement region hit a generic syntax error
(recovered through `statement : error NEWLINE`) followed by a clean
assignment. -/
def progC2 : StmtList :=
  .snoc (.single (.genericError "syntax error, unexpected BREAK"))
    (.assign "x" (.integer 5) 2)

/-- A small clean program: `x = 5` then `y = x`. -/
def progC1demo : StmtList :=
  .snoc (.single (.assign "x" (.integer 5) 1)) (.assign "y" (.ident "x" 2) 2)

/-- 641 pairwise distinct single-character keys: inserting them all
leaves a 128-bucket table holding 641 elements, whose load factor
641/128 exceeds the threshold, so the very next insert — even a
duplicate — resizes. -/
def dupKeys : List (String × Nat) :=
  (List.range 641).map (fun i => (String.mk [Char.ofNat (i + 1)], 0))

/-- The first of the 641 keys. -/
def dupKey0 : String := String.mk [Char.ofNat 1]

/-! ## Chain-level lemmas -/

theorem _chain_find_eq_none {key : String} {l : List (Association V)} :
    _chain_find key l = none ↔ ∀ a ∈ l, key ≠ a.key := by
  induction l with
  | nil => simp [_chain_find]
  | cons a rest ih =>
    by_cases hk : key = a.key <;> simp [_chain_find, hk, ih]

theorem _chain_find_append {key : String} {l₁ l₂ : List (Association V)} :
    _chain_find key (l₁ ++ l₂) = (_chain_find key l₁).or (_chain_find key l₂) := by
  induction l₁ with
  | nil => simp [_chain_find]
  | cons a rest ih =>
    by_cases hk : key = a.key <;> simp [_chain_find, hk, ih]

theorem _chain_update_eq_none {key : String} {v : V} {l : List (Association V)} :
    _chain_update key v l = none ↔ _chain_find key l = none := by
  induction l with
  | nil => simp [_chain_update, _chain_find]
  | cons a rest ih =>
    by_cases hk : key = a.key <;> simp [_chain_update, _chain_find, hk, ih]

theorem _chain_update_keys {key : String} {v : V} {l l' : List (Association V)}
    (h : _chain_update key v l = some l') :
    l'.map (fun a => a.key) = l.map (fun a => a.key) := by
  induction l generalizing l' with
  | nil => simp [_chain_update] at h
  | cons a rest ih =>
    by_cases hk : key = a.key
    · simp [_chain_update, hk] at h
      subst h; simp
    · simp [_chain_update, hk] at h
      obtain ⟨m, hm, rfl⟩ := h
      simp [ih hm]

theorem _chain_find_update_self {key : String} {v : V} {l l' : List (Association V)}
    (h : _chain_update key v l = some l') :
    _chain_find key l' = some { key := key, value := v } := by
  induction l generalizing l' with
  | nil => simp [_chain_update] at h
  | cons a rest ih =>
    by_cases hk : key = a.key
    · subst hk
      simp [_chain_update] at h
      subst h
      simp [_chain_find]
    · simp [_chain_update, hk] at h
      obtain ⟨m, hm, rfl⟩ := h
      simp [_chain_find, hk, ih hm]

theorem _chain_find_update_other {key k' : String} {v : V} {l l' : List (Association V)}
    (h : _chain_update key v l = some l') (hk' : k' ≠ key) :
    _chain_find k' l' = _chain_find k' l := by
  induction l generalizing l' with
  | nil => simp [_chain_update] at h
  | cons a rest ih =>
    by_cases hk : key = a.key
    · subst hk
      simp [_chain_update] at h
      subst h
      simp [_chain_find, hk']
    · simp [_chain_update, hk] at h
      obtain ⟨m, hm, rfl⟩ := h
      by_cases h2 : k' = a.key
      · simp [_chain_find, h2]
      · simp [_chain_find, h2, ih hm]

/-! ## Table-level lemmas for the no-resize insert -/

theorem _getD_set_self {t : List α} {i : Nat} {c d : α} (hi : i < t.length) :
    (t.set i c).getD i d = c := by
  simp [List.getD, List.getElem?_set_self hi]

theorem _getD_set_ne {t : List α} {i j : Nat} {c d : α} (hij : i ≠ j) :
    (t.set i c).getD j d = t.getD j d := by
  simp [List.getD, List.getElem?_set_ne hij]

theorem capacity_insert_no_resize (h : Hash V) (key : String) (v : V) :
    (_hash_insert_no_resize h key v).capacity = h.capacity := by
  simp only [_hash_insert_no_resize]
  cases hu : _chain_update key v (h.table.getD (_bucket_idx h.capacity key) []) <;>
    simp [Hash.capacity]

theorem _bucket_idx_lt (cap : Nat) (key : String) (hcap : 0 < cap) :
    _bucket_idx cap key < cap :=
  Nat.mod_lt _ hcap

theorem contains_eq_isSome_get (h : Hash V) (k : String) :
    hash_contains h k = (hash_get h k).isSome := by
  simp [hash_contains, hash_get, Option.isSome_map]

/-- Local correctness of the guard-free insert: `hash_get` afterwards
returns the new value at the inserted key and is untouched elsewhere. -/
theorem hash_get_insert_no_resize (h : Hash V) (hcap : 0 < h.capacity)
    (key : String) (v : V) (k' : String) :
    hash_get (_hash_insert_no_resize h key v) k' =
      if k' = key then some v else hash_get h k' := by
  have hlt : _bucket_idx h.capacity key < h.table.length :=
    _bucket_idx_lt _ _ hcap
  have hcap' := capacity_insert_no_resize h key v
  simp only [hash_get]
  rw [hcap']
  simp only [_hash_insert_no_resize]
  cases hu : _chain_update key v (h.table.getD (_bucket_idx h.capacity key) []) with
  | some chain2 =>
    simp only
    by_cases hk : k' = key
    · subst hk
      rw [_getD_set_self hlt, _chain_find_update_self hu]
      simp
    · by_cases hb : _bucket_idx h.capacity k' = _bucket_idx h.capacity key
      · rw [hb, _getD_set_self hlt, _chain_find_update_other hu hk, if_neg hk]
      · rw [_getD_set_ne (fun e => hb e.symm), if_neg hk]
  | none =>
    simp only
    by_cases hk : k' = key
    · subst hk
      rw [_getD_set_self hlt]
      simp [_chain_find]
    · by_cases hb : _bucket_idx h.capacity k' = _bucket_idx h.capacity key
      · rw [hb, _getD_set_self hlt, if_neg hk]
        simp [_chain_find, hk, hb]
      · rw [_getD_set_ne (fun e => hb e.symm), if_neg hk]

theorem num_elems_insert_no_resize (h : Hash V) (key : String) (v : V) :
    (_hash_insert_no_resize h key v).num_elems =
      if hash_contains h key then h.num_elems else h.num_elems + 1 := by
  simp only [_hash_insert_no_resize, hash_contains]
  cases hu : _chain_update key v (h.table.getD (_bucket_idx h.capacity key) []) with
  | some chain2 =>
    have hne : _chain_find key (h.table.getD (_bucket_idx h.capacity key) []) ≠ none := by
      intro hn
      rw [← _chain_update_eq_none (v := v)] at hn
      rw [hn] at hu
      simp at hu
    simp only
    rw [if_pos (by simpa [Option.isSome_iff_ne_none] using hne)]
  | none =>
    have hfind : _chain_find key (h.table.getD (_bucket_idx h.capacity key) []) = none :=
      _chain_update_eq_none.mp hu
    simp only
    rw [if_neg (by rw [hfind]; simp)]

/-! ## The table invariant

Reachable tables keep every association in the bucket its key hashes
to, never store a key twice in a chain, and keep `num_elems` equal to
the number of stored associations. -/

def WF (h : Hash V) : Prop :=
  0 < h.capacity ∧
  (∀ i, ∀ a ∈ h.table.getD i [], _bucket_idx h.capacity a.key = i) ∧
  (∀ i, ((h.table.getD i []).map (fun a => a.key)).Nodup) ∧
  h.num_elems = _total_elems h.table

theorem _total_elems_set {t : List (List (Association V))} {i : Nat}
    {c : List (Association V)} (hi : i < t.length) :
    _total_elems (t.set i c) + (t.getD i []).length = _total_elems t + c.length := by
  induction t generalizing i with
  | nil => simp at hi
  | cons x rest ih =>
    cases i with
    | zero =>
      show _total_elems (c :: rest) + x.length = _total_elems (x :: rest) + c.length
      simp only [_total_elems, List.map_cons, List.sum_cons]
      omega
    | succ i =>
      have hi' : i < rest.length := by simpa using hi
      have h2 := ih hi'
      show _total_elems (x :: rest.set i c) + (rest.getD i []).length =
        _total_elems (x :: rest) + c.length
      simp only [_total_elems, List.map_cons, List.sum_cons] at *
      omega

theorem _getD_replicate {c i : Nat} :
    (List.replicate c ([] : List (Association V))).getD i [] = [] := by
  simp only [List.getD, List.getElem?_replicate]
  by_cases hi : i < c <;> simp [hi]

theorem capacity_init (V : Type) (c : Nat) : (_hash_table_init V c).capacity = c := by
  simp [_hash_table_init, Hash.capacity]

theorem hash_get_init (V : Type) (c : Nat) (k : String) :
    hash_get (_hash_table_init V c) k = none := by
  simp [hash_get, _hash_table_init, _getD_replicate, _chain_find]

theorem WF_init (V : Type) (c : Nat) (hc : 0 < c) : WF (_hash_table_init V c) := by
  refine ⟨by simpa [capacity_init], ?_, ?_, ?_⟩
  · intro i a ha
    rw [show (_hash_table_init V c).table = List.replicate c [] from rfl,
      _getD_replicate] at ha
    simp at ha
  · intro i
    rw [show (_hash_table_init V c).table = List.replicate c [] from rfl,
      _getD_replicate]
    simp
  · simp [_hash_table_init, _total_elems, List.map_replicate]

theorem WF_hash_create (V : Type) : WF (hash_create V) :=
  WF_init V INITIAL_CAPACITY (by norm_num [INITIAL_CAPACITY])

theorem _insert_table_update {h : Hash V} {key : String} {v : V}
    {chain2 : List (Association V)}
    (hu : _chain_update key v (h.table.getD (_bucket_idx h.capacity key) []) = some chain2) :
    (_hash_insert_no_resize h key v).table =
      h.table.set (_bucket_idx h.capacity key) chain2 := by
  simp only [_hash_insert_no_resize, hu]

theorem _insert_table_fresh {h : Hash V} {key : String} {v : V}
    (hu : _chain_update key v (h.table.getD (_bucket_idx h.capacity key) []) = none) :
    (_hash_insert_no_resize h key v).table =
      h.table.set (_bucket_idx h.capacity key)
        ({ key := key, value := v } :: h.table.getD (_bucket_idx h.capacity key) []) := by
  simp only [_hash_insert_no_resize, hu]

theorem WF_insert_no_resize (h : Hash V) (hWF : WF h) (key : String) (v : V) :
    WF (_hash_insert_no_resize h key v) := by
  obtain ⟨hcap, hbucket, hnodup, hcount⟩ := hWF
  have hlt : _bucket_idx h.capacity key < h.table.length := _bucket_idx_lt _ _ hcap
  have hcap' : (_hash_insert_no_resize h key v).capacity = h.capacity :=
    capacity_insert_no_resize h key v
  have hnum := num_elems_insert_no_resize h key v
  refine ⟨by rw [hcap']; exact hcap, ?_, ?_, ?_⟩
  · -- bucket condition
    intro i a ha
    rw [hcap']
    cases hu : _chain_update key v (h.table.getD (_bucket_idx h.capacity key) []) with
    | some chain2 =>
      rw [_insert_table_update hu] at ha
      by_cases hi : i = _bucket_idx h.capacity key
      · subst hi
        rw [_getD_set_self hlt] at ha
        have hmem : a.key ∈ (h.table.getD (_bucket_idx h.capacity key) []).map
            (fun a => a.key) := by
          rw [← _chain_update_keys hu]
          exact List.mem_map_of_mem _ ha
        obtain ⟨b, hb, hbk⟩ := List.mem_map.mp hmem
        rw [← hbk]
        exact hbucket _ b hb
      · rw [_getD_set_ne (fun e => hi e.symm)] at ha
        exact hbucket i a ha
    | none =>
      rw [_insert_table_fresh hu] at ha
      by_cases hi : i = _bucket_idx h.capacity key
      · subst hi
        rw [_getD_set_self hlt] at ha
        rcases List.mem_cons.mp ha with ha | ha
        · rw [ha]
        · exact hbucket _ a ha
      · rw [_getD_set_ne (fun e => hi e.symm)] at ha
        exact hbucket i a ha
  · -- per-chain key Nodup
    intro i
    cases hu : _chain_update key v (h.table.getD (_bucket_idx h.capacity key) []) with
    | some chain2 =>
      rw [_insert_table_update hu]
      by_cases hi : i = _bucket_idx h.capacity key
      · subst hi
        rw [_getD_set_self hlt, _chain_update_keys hu]
        exact hnodup _
      · rw [_getD_set_ne (fun e => hi e.symm)]
        exact hnodup i
    | none =>
      rw [_insert_table_fresh hu]
      by_cases hi : i = _bucket_idx h.capacity key
      · subst hi
        rw [_getD_set_self hlt]
        refine List.Nodup.cons ?_ (hnodup _)
        have hfind := _chain_update_eq_none.mp hu
        rw [_chain_find_eq_none] at hfind
        intro hmem
        obtain ⟨b, hb, hbk⟩ := List.mem_map.mp hmem
        exact hfind b hb hbk.symm
      · rw [_getD_set_ne (fun e => hi e.symm)]
        exact hnodup i
  · -- element count
    rw [hnum, contains_eq_isSome_get]
    cases hu : _chain_update key v (h.table.getD (_bucket_idx h.capacity key) []) with
    | some chain2 =>
      have hget : (hash_get h key).isSome = true := by
        simp only [hash_get]
        cases hfind : _chain_find key (h.table.getD (_bucket_idx h.capacity key) []) with
        | some a => rfl
        | none => rw [← _chain_update_eq_none (v := v)] at hfind; rw [hfind] at hu; cases hu
      rw [if_pos hget, _insert_table_update hu]
      have hset := _total_elems_set (t := h.table) (c := chain2) hlt
      have hlen : chain2.length =
          (h.table.getD (_bucket_idx h.capacity key) []).length := by
        have := congrArg List.length (_chain_update_keys hu)
        simpa using this
      omega
    | none =>
      have hget : ¬ (hash_get h key).isSome = true := by
        simp only [hash_get, _chain_update_eq_none.mp hu]
        simp
      rw [if_neg hget, _insert_table_fresh hu]
      have hset := _total_elems_set
        (t := h.table)
        (c := { key := key, value := v } :: h.table.getD (_bucket_idx h.capacity key) [])
        hlt
      simp only [List.length_cons] at hset
      omega

/-! ## Rehash: folding the guard-free insert over a list of fresh keys -/

theorem _fold_insert_spec (l : List (Association V)) (t : Hash V)
    (hcap : 0 < t.capacity)
    (hfresh : ∀ a ∈ l, hash_get t a.key = none)
    (hnd : (l.map (fun a => a.key)).Nodup) :
    (∀ k, hash_get (l.foldl (fun acc a => _hash_insert_no_resize acc a.key a.value) t) k =
        ((_chain_find k l).map (fun a => a.value)).or (hash_get t k)) ∧
      (l.foldl (fun acc a => _hash_insert_no_resize acc a.key a.value) t).capacity =
        t.capacity ∧
      (l.foldl (fun acc a => _hash_insert_no_resize acc a.key a.value) t).num_elems =
        t.num_elems + l.length ∧
      (WF t → WF (l.foldl (fun acc a => _hash_insert_no_resize acc a.key a.value) t)) := by
  induction l generalizing t with
  | nil => simp [_chain_find]
  | cons a rest ih =>
    have hfresh_a : hash_get t a.key = none := hfresh a (List.mem_cons_self a rest)
    have hnd2 := hnd
    rw [List.map_cons, List.nodup_cons] at hnd2
    have hnotin : a.key ∉ rest.map (fun a => a.key) := hnd2.1
    have hcap1 : (_hash_insert_no_resize t a.key a.value).capacity = t.capacity :=
      capacity_insert_no_resize t a.key a.value
    have hget1 := hash_get_insert_no_resize t hcap a.key a.value
    have hfresh' : ∀ b ∈ rest, hash_get (_hash_insert_no_resize t a.key a.value) b.key = none := by
      intro b hb
      rw [hget1 b.key]
      have hbk : b.key ≠ a.key := by
        intro e
        apply hnotin
        rw [← e]
        exact List.mem_map_of_mem _ hb
      rw [if_neg hbk]
      exact hfresh b (List.mem_cons_of_mem a hb)
    obtain ⟨ihget, ihcap, ihnum, ihWF⟩ :=
      ih (_hash_insert_no_resize t a.key a.value) (hcap1 ▸ hcap) hfresh' hnd2.2
    refine ⟨?_, ?_, ?_, ?_⟩
    · intro k
      rw [List.foldl_cons, ihget k]
      by_cases hk : k = a.key
      · subst hk
        have hrest : _chain_find a.key rest = none := by
          rw [_chain_find_eq_none]
          intro b hb e
          apply hnotin
          rw [e]
          exact List.mem_map_of_mem _ hb
        rw [hget1 a.key, if_pos rfl, hrest]
        simp [_chain_find, hfresh_a]
      · rw [hget1 k, if_neg hk]
        simp [_chain_find, hk]
    · rw [List.foldl_cons, ihcap, hcap1]
    · rw [List.foldl_cons, ihnum, num_elems_insert_no_resize,
        contains_eq_isSome_get, hfresh_a]
      simp [List.length_cons]
      omega
    · intro hWF
      exact ihWF (WF_insert_no_resize t hWF a.key a.value)

/-! ## Bridging bucket-local search and whole-table search -/

theorem _getD_eq_getElem {t : List α} {i : Nat} (hi : i < t.length) (d : α) :
    t.getD i d = t[i] := by
  simp [List.getD, List.getElem?_eq_getElem hi]

theorem _chain_find_flatten_none {t : List (List (Association V))} {k : String}
    (h : ∀ c ∈ t, ∀ a ∈ c, k ≠ a.key) : _chain_find k t.flatten = none := by
  rw [_chain_find_eq_none]
  intro a ha
  obtain ⟨c, hc, hac⟩ := List.mem_flatten.mp ha
  exact h c hc a hac

theorem _chain_find_flatten_eq {t : List (List (Association V))} {k : String} (j : Nat)
    (hother : ∀ i, i ≠ j → ∀ a ∈ t.getD i [], k ≠ a.key) :
    _chain_find k t.flatten = _chain_find k (t.getD j []) := by
  induction t generalizing j with
  | nil => simp [_chain_find, List.getD]
  | cons c rest ih =>
    rw [List.flatten_cons, _chain_find_append]
    cases j with
    | zero =>
      have hrest : _chain_find k rest.flatten = none := by
        apply _chain_find_flatten_none
        intro c' hc' a ha
        obtain ⟨i, hi, he⟩ := List.mem_iff_getElem.mp hc'
        refine hother (i + 1) (Nat.succ_ne_zero i) a ?_
        rw [List.getD_cons_succ, _getD_eq_getElem hi, he]
        exact ha
      rw [hrest, Option.or_none, List.getD_cons_zero]
    | succ j =>
      have hc : _chain_find k c = none := by
        rw [_chain_find_eq_none]
        intro a ha
        refine hother 0 (fun e => Nat.succ_ne_zero j e.symm) a ?_
        rw [List.getD_cons_zero]
        exact ha
      rw [hc, Option.none_or, List.getD_cons_succ]
      apply ih
      intro i hi a ha
      refine hother (i + 1) (fun e => hi (Nat.succ_injective e)) a ?_
      rw [List.getD_cons_succ]
      exact ha

/-- Under the invariant, `hash_get` (which searches only the bucket a
key hashes to) agrees with a search of the whole table. -/
theorem hash_get_eq_flatten_find (h : Hash V) (hWF : WF h) (k : String) :
    hash_get h k = (_chain_find k h.table.flatten).map (fun a => a.value) := by
  obtain ⟨hcap, hbucket, _, _⟩ := hWF
  simp only [hash_get]
  rw [_chain_find_flatten_eq (_bucket_idx h.capacity k)]
  intro i hi a ha he
  exact hi (by rw [← hbucket i a ha, ← he])

theorem WF_flatten_keys_nodup (h : Hash V) (hWF : WF h) :
    (h.table.flatten.map (fun a => a.key)).Nodup := by
  obtain ⟨hcap, hbucket, hnodup, _⟩ := hWF
  rw [List.map_flatten, List.nodup_flatten]
  constructor
  · intro l hl
    obtain ⟨c, hc, he⟩ := List.mem_map.mp hl
    obtain ⟨i, hi, he2⟩ := List.mem_iff_getElem.mp hc
    have hn := hnodup i
    rw [_getD_eq_getElem hi, he2] at hn
    rw [← he]
    exact hn
  · rw [List.pairwise_map, List.pairwise_iff_getElem]
    intro i j hi hj hij
    intro x hxi hxj
    obtain ⟨a, ha, hak⟩ := List.mem_map.mp hxi
    obtain ⟨b, hb, hbk⟩ := List.mem_map.mp hxj
    have h1 : _bucket_idx h.capacity a.key = i := by
      apply hbucket
      rw [_getD_eq_getElem hi]
      exact ha
    have h2 : _bucket_idx h.capacity b.key = j := by
      apply hbucket
      rw [_getD_eq_getElem hj]
      exact hb
    rw [hak] at h1
    rw [hbk] at h2
    rw [h1] at h2
    omega

/-! ## The resize operation -/

theorem _hash_resize_eq_fold (h : Hash V) :
    _hash_resize h =
      h.table.flatten.foldl (fun acc a => _hash_insert_no_resize acc a.key a.value)
        (_hash_table_init V (h.capacity * 2)) := by
  rw [_hash_resize]
  exact (List.foldl_flatten _ _ _).symm

theorem _hash_resize_spec (h : Hash V) (hWF : WF h) :
    (∀ k, hash_get (_hash_resize h) k = hash_get h k) ∧
      (_hash_resize h).capacity = h.capacity * 2 ∧
      (_hash_resize h).num_elems = h.num_elems ∧
      WF (_hash_resize h) := by
  have hcap : 0 < h.capacity := hWF.1
  have hinit_cap : 0 < (_hash_table_init V (h.capacity * 2)).capacity := by
    rw [capacity_init]
    omega
  obtain ⟨fget, fcap, fnum, fWF⟩ :=
    _fold_insert_spec h.table.flatten (_hash_table_init V (h.capacity * 2)) hinit_cap
      (fun a _ => hash_get_init V (h.capacity * 2) a.key)
      (WF_flatten_keys_nodup h hWF)
  rw [← _hash_resize_eq_fold] at fget fcap fnum fWF
  refine ⟨?_, ?_, ?_, fWF (WF_init V (h.capacity * 2) (by omega))⟩
  · intro k
    rw [fget k, hash_get_init, Option.or_none, hash_get_eq_flatten_find h hWF]
  · rw [fcap, capacity_init]
  · rw [fnum]
    have hlen : h.table.flatten.length = _total_elems h.table := by
      rw [List.length_flatten, _total_elems]
    simp [_hash_table_init, hlen, hWF.2.2.2]

/-- The justification for embedding the rehash loop with the guard-free
insert: along any prefix of the rehash, the intermediate table's load
factor never exceeds the threshold, so the resize check inside the C
`hash_insert` calls can never fire recursively. -/
theorem _resize_guard_not_fired (h : Hash V) (hWF : WF h)
    (hinv : h.num_elems ≤ LOAD_FACTOR_THR * h.capacity + 1) :
    ∀ p : List (Association V), p <+: h.table.flatten →
      ¬(_hash_load_factor
          (p.foldl (fun acc a => _hash_insert_no_resize acc a.key a.value)
            (_hash_table_init V (h.capacity * 2))) > (LOAD_FACTOR_THR : ℚ)) := by
  intro p hp
  have hcap : 0 < h.capacity := hWF.1
  have hinit_cap : 0 < (_hash_table_init V (h.capacity * 2)).capacity := by
    rw [capacity_init]
    omega
  obtain ⟨fget, fcap, fnum, fWF⟩ :=
    _fold_insert_spec p (_hash_table_init V (h.capacity * 2)) hinit_cap
      (fun a _ => hash_get_init V (h.capacity * 2) a.key)
      (((hp.sublist).map _).nodup (WF_flatten_keys_nodup h hWF))
  rw [not_lt, _hash_load_factor, fnum, fcap, capacity_init]
  have hplen : p.length ≤ h.table.flatten.length := hp.sublist.length_le
  have hflat : h.table.flatten.length = _total_elems h.table := by
    rw [List.length_flatten, _total_elems]
  have hcount : h.num_elems = _total_elems h.table := hWF.2.2.2
  have hnum : p.length ≤ LOAD_FACTOR_THR * h.capacity + 1 := by
    rw [hflat] at hplen
    omega
  have hnum5 : p.length ≤ 5 * h.capacity + 1 := hnum
  have hle : (_hash_table_init V (h.capacity * 2)).num_elems + p.length ≤
      LOAD_FACTOR_THR * (h.capacity * 2) := by
    have he : (_hash_table_init V (h.capacity * 2)).num_elems = 0 := rfl
    rw [he]
    show 0 + p.length ≤ 5 * (h.capacity * 2)
    omega
  rw [div_le_iff₀ (by positivity)]
  push_cast
  calc ((_hash_table_init V (h.capacity * 2)).num_elems : ℚ) + p.length ≤
      (LOAD_FACTOR_THR : ℚ) * (h.capacity * 2) := by exact_mod_cast hle
    _ = (LOAD_FACTOR_THR : ℚ) * (h.capacity * 2) := rfl

/-! ## The full insert -/

theorem hash_insert_spec (h : Hash V) (hWF : WF h) (key : String) (v : V) :
    (∀ k', hash_get (hash_insert h key v) k' =
        if k' = key then some v else hash_get h k') ∧
      WF (hash_insert h key v) ∧
      (hash_insert h key v).capacity =
        (if _hash_load_factor h > (LOAD_FACTOR_THR : ℚ) then h.capacity * 2
          else h.capacity) ∧
      (hash_insert h key v).num_elems =
        (if hash_contains h key then h.num_elems else h.num_elems + 1) := by
  simp only [hash_insert]
  by_cases hg : _hash_load_factor h > (LOAD_FACTOR_THR : ℚ)
  · rw [if_pos hg]
    obtain ⟨rget, rcap, rnum, rWF⟩ := _hash_resize_spec h hWF
    have hcap2 : 0 < (_hash_resize h).capacity := rWF.1
    refine ⟨?_, WF_insert_no_resize _ rWF key v, ?_, ?_⟩
    · intro k'
      rw [hash_get_insert_no_resize _ hcap2 key v k']
      by_cases hk : k' = key
      · simp [hk]
      · rw [if_neg hk, if_neg hk, rget k']
    · rw [capacity_insert_no_resize, rcap, if_pos hg]
    · rw [num_elems_insert_no_resize, rnum, contains_eq_isSome_get,
        contains_eq_isSome_get, rget key]
  · rw [if_neg hg]
    refine ⟨?_, WF_insert_no_resize _ hWF key v, ?_, ?_⟩
    · exact hash_get_insert_no_resize h hWF.1 key v
    · rw [capacity_insert_no_resize, if_neg hg]
    · rw [num_elems_insert_no_resize]

/-! ## Insertion sequences: get returns the most recent value -/

theorem _lastInserted_from (rest : List (String × V)) (k : String) (acc : Option V) :
    rest.foldl (fun acc p => if p.1 = k then some p.2 else acc) acc =
      (lastInserted rest k).or acc := by
  induction rest generalizing acc with
  | nil => simp [lastInserted]
  | cons q rest ih =>
    rw [List.foldl_cons, ih]
    have h2 : lastInserted (q :: rest) k =
        (lastInserted rest k).or (if q.1 = k then some q.2 else none) := by
      simp only [lastInserted, List.foldl_cons]
      rw [ih]
      rfl
    rw [h2]
    cases hL : lastInserted rest k with
    | some v' => simp
    | none => by_cases hq : q.1 = k <;> simp [hq]

theorem WF_run_from (ops : List (String × V)) (t : Hash V) (hWF : WF t) :
    WF (ops.foldl (fun h p => hash_insert h p.1 p.2) t) := by
  induction ops generalizing t with
  | nil => exact hWF
  | cons p rest ih =>
    rw [List.foldl_cons]
    exact ih _ (hash_insert_spec t hWF p.1 p.2).2.1

theorem _run_get (ops : List (String × V)) (t : Hash V) (hWF : WF t) (k : String) :
    hash_get (ops.foldl (fun h p => hash_insert h p.1 p.2) t) k =
      (lastInserted ops k).or (hash_get t k) := by
  induction ops generalizing t with
  | nil => simp [lastInserted]
  | cons p rest ih =>
    rw [List.foldl_cons]
    obtain ⟨iget, iWF, _, _⟩ := hash_insert_spec t hWF p.1 p.2
    rw [ih _ iWF, iget k]
    have h2 : lastInserted (p :: rest) k =
        (lastInserted rest k).or (if p.1 = k then some p.2 else none) := by
      simp only [lastInserted, List.foldl_cons]
      rw [_lastInserted_from]
      rfl
    rw [h2]
    cases hL : lastInserted rest k with
    | some v' => simp
    | none =>
      by_cases hk : k = p.1
      · simp [hk]
      · have : p.1 ≠ k := fun e => hk e.symm
        simp [hk, this]

theorem WF_runInserts (ops : List (String × V)) : WF (runInserts ops) :=
  WF_run_from ops (hash_create V) (WF_hash_create V)

theorem runInserts_get (ops : List (String × V)) (k : String) :
    hash_get (runInserts ops) k = lastInserted ops k := by
  rw [runInserts, _run_get ops (hash_create V) (WF_hash_create V) k, hash_create,
    hash_get_init, Option.or_none]

/-! ## Iterator: the drain order is bucket order, chains from the head -/

theorem _scan_buckets_none {t : List (List (Association V))} :
    ∀ i, _scan_buckets t i = none → (t.drop i).flatten = [] := by
  have H : ∀ fuel i, t.length - i ≤ fuel → _scan_buckets t i = none →
      (t.drop i).flatten = [] := by
    intro fuel
    induction fuel with
    | zero =>
      intro i hle _h
      have hge : t.length ≤ i := by omega
      rw [List.drop_eq_nil_of_le hge]
      rfl
    | succ fuel ih =>
      intro i hle h
      by_cases hi : i < t.length
      · rw [_scan_buckets, dif_pos hi] at h
        cases hc : t.getD i [] with
        | nil =>
          rw [hc] at h
          have hrec := ih (i + 1) (by omega) h
          rw [List.drop_eq_getElem_cons hi, List.flatten_cons, hrec,
            ← _getD_eq_getElem hi ([] : List (Association V)), hc]
          rfl
        | cons a c =>
          rw [hc] at h
          cases h
      · have hge : t.length ≤ i := by omega
        rw [List.drop_eq_nil_of_le hge]
        rfl
  intro i h
  exact H (t.length - i) i le_rfl h

theorem _scan_buckets_some {t : List (List (Association V))} :
    ∀ i j, _scan_buckets t i = some j →
      i ≤ j ∧ j < t.length ∧ t.getD j [] ≠ [] ∧
        (t.drop i).flatten = (t.drop j).flatten := by
  have H : ∀ fuel i j, t.length - i ≤ fuel → _scan_buckets t i = some j →
      i ≤ j ∧ j < t.length ∧ t.getD j [] ≠ [] ∧
        (t.drop i).flatten = (t.drop j).flatten := by
    intro fuel
    induction fuel with
    | zero =>
      intro i j hle h
      have hge : t.length ≤ i := by omega
      rw [_scan_buckets, dif_neg (by omega)] at h
      cases h
    | succ fuel ih =>
      intro i j hle h
      by_cases hi : i < t.length
      · rw [_scan_buckets, dif_pos hi] at h
        cases hc : t.getD i [] with
        | nil =>
          rw [hc] at h
          obtain ⟨h1, h2, h3, h4⟩ := ih (i + 1) j (by omega) h
          refine ⟨by omega, h2, h3, ?_⟩
          rw [List.drop_eq_getElem_cons hi, List.flatten_cons,
            ← _getD_eq_getElem hi ([] : List (Association V)), hc,
            List.nil_append, h4]
        | cons a c =>
          rw [hc] at h
          cases h
          exact ⟨le_rfl, hi, by rw [hc]; simp, rfl⟩
      · rw [_scan_buckets, dif_neg hi] at h
        cases h
  intro i j h
  exact H (t.length - i) i j le_rfl h

theorem _drain_next_nil (fuel : Nat) (hh : Hash V) (j : Int) :
    _drain fuel { hash := hh, next := [], next_idx := j } = [] := by
  cases fuel <;> rfl

theorem _drain_succ_cons (fuel : Nat) (hh : Hash V) (a : Association V)
    (s' : List (Association V)) (j : Int) :
    _drain (fuel + 1) { hash := hh, next := a :: s', next_idx := j } =
      (a.key, a.value) ::
        _drain fuel
          (_update_hash_iter_next { hash := hh, next := a :: s', next_idx := j }) :=
  rfl

theorem _update_next_nil (hh : Hash V) (j : Int) :
    _update_hash_iter_next { hash := hh, next := [], next_idx := j } =
      (match _scan_buckets hh.table (j + 1).toNat with
        | some i => { hash := hh, next := hh.table.getD i [], next_idx := (i : Int) }
        | none => { hash := hh, next := [], next_idx := j }) :=
  rfl

theorem _update_next_singleton (hh : Hash V) (a : Association V) (j : Int) :
    _update_hash_iter_next { hash := hh, next := [a], next_idx := j } =
      (match _scan_buckets hh.table (j + 1).toNat with
        | some i => { hash := hh, next := hh.table.getD i [], next_idx := (i : Int) }
        | none => { hash := hh, next := [], next_idx := j }) :=
  rfl

theorem _update_cons_cons (hh : Hash V) (a b : Association V)
    (s' : List (Association V)) (j : Int) :
    _update_hash_iter_next { hash := hh, next := a :: b :: s', next_idx := j } =
      { hash := hh, next := b :: s', next_idx := j } :=
  rfl

theorem _drain_spec (h : Hash V) :
    ∀ (fuel : Nat) (s : List (Association V)) (j : Nat), s ≠ [] →
      s.length + ((h.table.drop (j + 1)).flatten).length ≤ fuel →
      _drain fuel { hash := h, next := s, next_idx := (j : Int) } =
        (s ++ (h.table.drop (j + 1)).flatten).map (fun a => (a.key, a.value)) := by
  intro fuel
  induction fuel with
  | zero =>
    intro s j hs hle
    cases s with
    | nil => exact absurd rfl hs
    | cons a s' => simp at hle
  | succ fuel ih =>
    intro s j hs hle
    cases s with
    | nil => exact absurd rfl hs
    | cons a s' =>
      rw [_drain_succ_cons]
      cases s' with
      | cons b s'' =>
        rw [_update_cons_cons, ih (b :: s'') j (by simp) (by simp at hle ⊢; omega)]
        simp
      | nil =>
        have htoNat : ((j : Int) + 1).toNat = j + 1 := by omega
        rw [_update_next_singleton h a (j : Int), htoNat]
        cases hscan : _scan_buckets h.table (j + 1) with
        | none =>
          have hempty := _scan_buckets_none (j + 1) hscan
          rw [hempty, _drain_next_nil]
          simp
        | some i =>
          obtain ⟨hij, hlt, hne, heq⟩ := _scan_buckets_some (j + 1) i hscan
          have hdropi : (h.table.drop i).flatten =
              h.table.getD i [] ++ (h.table.drop (i + 1)).flatten := by
            rw [List.drop_eq_getElem_cons hlt, List.flatten_cons,
              _getD_eq_getElem hlt]
          rw [ih (h.table.getD i []) i hne ?_]
          · rw [heq, hdropi]
            simp
          · rw [heq, hdropi] at hle
            simp only [List.length_cons, List.length_append] at hle ⊢
            omega

/-- Helper for the iterator claims: one full drain of a fresh iterator
enumerates the table's associations bucket by bucket, each chain from
its head. -/
theorem hash_iter_drain_eq_flatten (h : Hash V) :
    hash_iter_drain h = h.table.flatten.map (fun a => (a.key, a.value)) := by
  rw [hash_iter_drain, hash_iter_create]
  rw [_update_next_nil h (-1)]
  have h0 : (-1 + 1 : Int).toNat = 0 := rfl
  rw [h0]
  have htot : _total_elems h.table = h.table.flatten.length := by
    rw [List.length_flatten, _total_elems]
  cases hscan : _scan_buckets h.table 0 with
  | none =>
    have hempty := _scan_buckets_none 0 hscan
    rw [List.drop_zero] at hempty
    rw [_drain_next_nil, hempty]
    rfl
  | some i =>
    obtain ⟨_, hlt, hne, heq⟩ := _scan_buckets_some 0 i hscan
    rw [List.drop_zero] at heq
    have hdropi : (h.table.drop i).flatten =
        h.table.getD i [] ++ (h.table.drop (i + 1)).flatten := by
      rw [List.drop_eq_getElem_cons hlt, List.flatten_cons, _getD_eq_getElem hlt]
    rw [_drain_spec h (_total_elems h.table) (h.table.getD i []) i hne ?_]
    · rw [heq, hdropi]
    · rw [htot, heq, hdropi]
      simp

/-! ## Capacity evolution along an insertion sequence -/

theorem _load_factor_gt_iff (h : Hash V) (hcap : 0 < h.capacity) :
    (_hash_load_factor h > (LOAD_FACTOR_THR : ℚ)) ↔
      LOAD_FACTOR_THR * h.capacity < h.num_elems := by
  rw [_hash_load_factor, gt_iff_lt, lt_div_iff₀ (by exact_mod_cast hcap)]
  constructor
  · intro hx; exact_mod_cast hx
  · intro hx; exact_mod_cast hx

theorem runInserts_append_singleton (l : List (String × V)) (p : String × V) :
    runInserts (l ++ [p]) = hash_insert (runInserts l) p.1 p.2 := by
  rw [runInserts, List.foldl_append, List.foldl_cons, List.foldl_nil]
  rfl

theorem lastInserted_cons (q : String × V) (rest : List (String × V)) (k : String) :
    lastInserted (q :: rest) k =
      (lastInserted rest k).or (if q.1 = k then some q.2 else none) := by
  simp only [lastInserted, List.foldl_cons]
  rw [_lastInserted_from]
  rfl

theorem lastInserted_eq_none_iff (ops : List (String × V)) (k : String) :
    lastInserted ops k = none ↔ k ∉ ops.map Prod.fst := by
  induction ops with
  | nil => simp [lastInserted]
  | cons q rest ih =>
    rw [lastInserted_cons, List.map_cons]
    constructor
    · intro hx
      have hboth : lastInserted rest k = none ∧
          (if q.1 = k then some q.2 else none) = none := by
        cases hL : lastInserted rest k with
        | some v' =>
          rw [hL] at hx
          exact Option.noConfusion hx
        | none =>
          rw [hL, Option.none_or] at hx
          exact ⟨rfl, hx⟩
      intro hmem
      rcases List.mem_cons.mp hmem with he | hmem2
      · have hb2 := hboth.2
        rw [if_pos he.symm] at hb2
        cases hb2
      · exact (ih.mp hboth.1) hmem2
    · intro hmem
      have h1 : lastInserted rest k = none :=
        ih.mpr (fun hm => hmem (List.mem_cons_of_mem _ hm))
      have h2 : q.1 ≠ k := fun he => hmem (List.mem_cons.mpr (Or.inl he.symm))
      rw [h1, Option.none_or, if_neg h2]

theorem runInserts_contains (ops : List (String × V)) (k : String) :
    hash_contains (runInserts ops) k = (lastInserted ops k).isSome := by
  rw [contains_eq_isSome_get, runInserts_get]

theorem runInserts_num_nodup (ops : List (String × V))
    (hnd : (ops.map Prod.fst).Nodup) :
    (runInserts ops).num_elems = ops.length := by
  induction ops using List.reverseRecOn with
  | nil => rfl
  | append_singleton l p ih =>
    have hnd2 := hnd
    rw [List.map_append, List.nodup_append] at hnd2
    obtain ⟨hndl, _, hdisj⟩ := hnd2
    have hnotin : p.1 ∉ l.map Prod.fst := by
      intro hmem
      exact hdisj hmem (by simp)
    have hcontains : hash_contains (runInserts l) p.1 = false := by
      rw [runInserts_contains, (lastInserted_eq_none_iff l p.1).mpr hnotin]
      rfl
    obtain ⟨_, _, _, hnum⟩ := hash_insert_spec (runInserts l) (WF_runInserts l) p.1 p.2
    rw [runInserts_append_singleton, hnum, hcontains]
    simp [ih hndl]

/-- Full tracking of capacity along a run of insertions: the capacity
is a power-of-two multiple of the initial capacity, it bounds all
pre-insert element counts via the threshold, and it is minimal among
such power-of-two multiples; moreover the element count can overshoot
the threshold by at most one. -/
theorem _run_capacity_spec (ops : List (String × V)) :
    (∃ j : Nat, (runInserts ops).capacity = INITIAL_CAPACITY * 2 ^ j) ∧
      (∀ i, i < ops.length →
        (runInserts (ops.take i)).num_elems ≤
          LOAD_FACTOR_THR * (runInserts ops).capacity) ∧
      (∀ c : Nat, (∃ j : Nat, c = INITIAL_CAPACITY * 2 ^ j) →
        c < (runInserts ops).capacity →
        ∃ i, i < ops.length ∧
          LOAD_FACTOR_THR * c < (runInserts (ops.take i)).num_elems) ∧
      (runInserts ops).num_elems ≤
        LOAD_FACTOR_THR * (runInserts ops).capacity + 1 := by
  induction ops using List.reverseRecOn with
  | nil =>
    have hcap : (runInserts ([] : List (String × V))).capacity = INITIAL_CAPACITY := by
      rw [runInserts, List.foldl_nil, hash_create, capacity_init]
    have hnum : (runInserts ([] : List (String × V))).num_elems = 0 := rfl
    refine ⟨⟨0, by rw [hcap]; ring⟩, by simp, ?_, by rw [hnum]; omega⟩
    intro c hc hlt
    obtain ⟨j, rfl⟩ := hc
    rw [hcap] at hlt
    have h1 : INITIAL_CAPACITY * 1 ≤ INITIAL_CAPACITY * 2 ^ j :=
      Nat.mul_le_mul_left _ Nat.one_le_two_pow
    rw [Nat.mul_one] at h1
    exact absurd hlt (not_lt.mpr h1)
  | append_singleton l p ih =>
    obtain ⟨⟨j, hcap⟩, h2, h3, h4⟩ := ih
    have hstep := runInserts_append_singleton l p
    have hWFl := WF_runInserts (V := V) l
    obtain ⟨_, _, hcapstep, hnumstep⟩ :=
      hash_insert_spec (runInserts l) hWFl p.1 p.2
    have htake : ∀ i, i ≤ l.length → (l ++ [p]).take i = l.take i := fun i hi =>
      List.take_append_of_le_length hi
    have htakeN : (l ++ [p]).take l.length = l := by
      rw [List.take_append_of_le_length le_rfl, List.take_length]
    have hcappos : 0 < (runInserts l).capacity := hWFl.1
    have hguard := _load_factor_gt_iff (runInserts l) hcappos
    have hnumle : (runInserts (l ++ [p])).num_elems ≤ (runInserts l).num_elems + 1 := by
      rw [hstep, hnumstep]
      by_cases hc : hash_contains (runInserts l) p.1 <;> simp [hc]
    have hTHR : LOAD_FACTOR_THR = 5 := rfl
    by_cases hg : _hash_load_factor (runInserts l) > (LOAD_FACTOR_THR : ℚ)
    · have hnumgt : LOAD_FACTOR_THR * (runInserts l).capacity <
          (runInserts l).num_elems := hguard.mp hg
      have hcap' : (runInserts (l ++ [p])).capacity = (runInserts l).capacity * 2 := by
        rw [hstep, hcapstep, if_pos hg]
      refine ⟨⟨j + 1, by rw [hcap', hcap]; ring⟩, ?_, ?_, ?_⟩
      · intro i hi
        rw [List.length_append, List.length_singleton] at hi
        rw [hcap']
        by_cases hil : i < l.length
        · rw [htake i (le_of_lt hil)]
          have hb := h2 i hil
          rw [hTHR] at hb ⊢
          omega
        · have hieq : i = l.length := by omega
          rw [hieq, htakeN]
          rw [hTHR] at h4 ⊢
          omega
      · intro c hc hlt
        obtain ⟨j', hj'⟩ := hc
        rw [hcap'] at hlt
        by_cases hcl : c < (runInserts l).capacity
        · obtain ⟨i, hi, hgt⟩ := h3 c ⟨j', hj'⟩ hcl
          refine ⟨i, by rw [List.length_append, List.length_singleton]; omega, ?_⟩
          rw [htake i (le_of_lt hi)]
          exact hgt
        · have hpow : 2 ^ j' < 2 ^ (j + 1) := by
            apply Nat.lt_of_mul_lt_mul_left (a := INITIAL_CAPACITY)
            calc INITIAL_CAPACITY * 2 ^ j' = c := hj'.symm
              _ < (runInserts l).capacity * 2 := hlt
              _ = INITIAL_CAPACITY * 2 ^ (j + 1) := by rw [hcap]; ring
          have hj'le : j' ≤ j := by
            have := (Nat.pow_lt_pow_iff_right (by norm_num : 1 < 2)).mp hpow
            omega
          have hcle : c ≤ (runInserts l).capacity := by
            rw [hj', hcap]
            exact Nat.mul_le_mul_left _ (Nat.pow_le_pow_right (by norm_num) hj'le)
          have hce : c = (runInserts l).capacity := by omega
          refine ⟨l.length, by rw [List.length_append, List.length_singleton]; omega, ?_⟩
          rw [htakeN, hce]
          exact hnumgt
      · rw [hcap']
        rw [hTHR] at h4 hnumgt ⊢
        omega
    · have hcap' : (runInserts (l ++ [p])).capacity = (runInserts l).capacity := by
        rw [hstep, hcapstep, if_neg hg]
      have hnumle5 : (runInserts l).num_elems ≤
          LOAD_FACTOR_THR * (runInserts l).capacity := by
        have hx : ¬ (LOAD_FACTOR_THR * (runInserts l).capacity <
            (runInserts l).num_elems) := fun hx => hg (hguard.mpr hx)
        omega
      refine ⟨⟨j, by rw [hcap']; exact hcap⟩, ?_, ?_, ?_⟩
      · intro i hi
        rw [List.length_append, List.length_singleton] at hi
        rw [hcap']
        by_cases hil : i < l.length
        · rw [htake i (le_of_lt hil)]
          exact h2 i hil
        · have hieq : i = l.length := by omega
          rw [hieq, htakeN]
          exact hnumle5
      · intro c hc hlt
        rw [hcap'] at hlt
        obtain ⟨i, hi, hgt⟩ := h3 c hc hlt
        refine ⟨i, by rw [List.length_append, List.length_singleton]; omega, ?_⟩
        rw [htake i (le_of_lt hi)]
        exact hgt
      · rw [hcap']
        omega

/-! ## Symbol-table facts used by the translator lemmas -/

theorem hash_contains_create (V : Type) (k : String) :
    hash_contains (hash_create V) k = false := by
  rw [contains_eq_isSome_get, hash_create, hash_get_init]
  rfl

theorem contains_insert_iff (h : Hash V) (hWF : WF h) (n : String) (v : V)
    (k : String) :
    hash_contains (hash_insert h n v) k = true ↔
      k = n ∨ hash_contains h k = true := by
  obtain ⟨hget, _, _, _⟩ := hash_insert_spec h hWF n v
  rw [contains_eq_isSome_get, contains_eq_isSome_get, hget k]
  by_cases hk : k = n <;> simp [hk]

/-! ## The translator never touches the symbol table inside expressions -/

theorem evalExpr_symbols (st : TState) (e : Expr) :
    (evalExpr st e).1.symbols = st.symbols := by
  induction e generalizing st with
  | paren e ih => simp only [evalExpr]; rw [ih]
  | plus a b iha ihb => simp only [evalExpr]; rw [ihb, iha]
  | minus a b iha ihb => simp only [evalExpr]; rw [ihb, iha]
  | times a b iha ihb => simp only [evalExpr]; rw [ihb, iha]
  | dividedby a b iha ihb => simp only [evalExpr]; rw [ihb, iha]
  | eq a b iha ihb => simp only [evalExpr]; rw [ihb, iha]
  | neq a b iha ihb => simp only [evalExpr]; rw [ihb, iha]
  | gt a b iha ihb => simp only [evalExpr]; rw [ihb, iha]
  | gte a b iha ihb => simp only [evalExpr]; rw [ihb, iha]
  | lt a b iha ihb => simp only [evalExpr]; rw [ihb, iha]
  | lte a b iha ihb => simp only [evalExpr]; rw [ihb, iha]
  | integer v => rfl
  | float v => rfl
  | boolean s => rfl
  | ident name line =>
    simp only [evalExpr]
    by_cases hc : hash_contains st.symbols name <;> simp [hc]

/-! ## Clean evaluation: expressions with all identifiers defined -/

theorem evalExpr_clean (e : Expr) (st : TState) (S : List String)
    (hok : exprOK S e = true)
    (hcontains : ∀ k, hash_contains st.symbols k = true ↔ k ∈ S) :
    (evalExpr st e).1 = st ∧ (evalExpr st e).2.isSome = true := by
  induction e generalizing st with
  | paren e ih =>
    obtain ⟨h1, h2⟩ := ih st hok hcontains
    simp only [evalExpr]
    rw [h1]
    refine ⟨rfl, ?_⟩
    cases hx : (evalExpr st e).2
    · rw [hx] at h2; cases h2
    · simp
  | integer v => exact ⟨rfl, rfl⟩
  | float v => exact ⟨rfl, rfl⟩
  | boolean s => exact ⟨rfl, rfl⟩
  | ident name line =>
    have hmem : name ∈ S := by
      rw [exprOK] at hok
      exact of_decide_eq_true hok
    have hc : hash_contains st.symbols name = true := (hcontains name).mpr hmem
    simp only [evalExpr, hc]
    exact ⟨rfl, rfl⟩
  | plus a b iha ihb =>
    rw [exprOK, Bool.and_eq_true] at hok
    obtain ⟨ha1, ha2⟩ := iha st hok.1 hcontains
    obtain ⟨hb1, hb2⟩ := ihb st hok.2 hcontains
    simp only [evalExpr]
    rw [ha1, hb1]
    refine ⟨rfl, ?_⟩
    cases hx : (evalExpr st a).2 with
    | none => rw [hx] at ha2; cases ha2
    | some xa =>
      cases hy : (evalExpr st b).2 with
      | none => rw [hy] at hb2; cases hb2
      | some yb => simp [_frag2, hx, hy]
  | minus a b iha ihb =>
    rw [exprOK, Bool.and_eq_true] at hok
    obtain ⟨ha1, ha2⟩ := iha st hok.1 hcontains
    obtain ⟨hb1, hb2⟩ := ihb st hok.2 hcontains
    simp only [evalExpr]
    rw [ha1, hb1]
    refine ⟨rfl, ?_⟩
    cases hx : (evalExpr st a).2 with
    | none => rw [hx] at ha2; cases ha2
    | some xa =>
      cases hy : (evalExpr st b).2 with
      | none => rw [hy] at hb2; cases hb2
      | some yb => simp [_frag2, hx, hy]
  | times a b iha ihb =>
    rw [exprOK, Bool.and_eq_true] at hok
    obtain ⟨ha1, ha2⟩ := iha st hok.1 hcontains
    obtain ⟨hb1, hb2⟩ := ihb st hok.2 hcontains
    simp only [evalExpr]
    rw [ha1, hb1]
    refine ⟨rfl, ?_⟩
    cases hx : (evalExpr st a).2 with
    | none => rw [hx] at ha2; cases ha2
    | some xa =>
      cases hy : (evalExpr st b).2 with
      | none => rw [hy] at hb2; cases hb2
      | some yb => simp [_frag2, hx, hy]
  | dividedby a b iha ihb =>
    rw [exprOK, Bool.and_eq_true] at hok
    obtain ⟨ha1, ha2⟩ := iha st hok.1 hcontains
    obtain ⟨hb1, hb2⟩ := ihb st hok.2 hcontains
    simp only [evalExpr]
    rw [ha1, hb1]
    refine ⟨rfl, ?_⟩
    cases hx : (evalExpr st a).2 with
    | none => rw [hx] at ha2; cases ha2
    | some xa =>
      cases hy : (evalExpr st b).2 with
      | none => rw [hy] at hb2; cases hb2
      | some yb => simp [_frag2, hx, hy]
  | eq a b iha ihb =>
    rw [exprOK, Bool.and_eq_true] at hok
    obtain ⟨ha1, ha2⟩ := iha st hok.1 hcontains
    obtain ⟨hb1, hb2⟩ := ihb st hok.2 hcontains
    simp only [evalExpr]
    rw [ha1, hb1]
    refine ⟨rfl, ?_⟩
    cases hx : (evalExpr st a).2 with
    | none => rw [hx] at ha2; cases ha2
    | some xa =>
      cases hy : (evalExpr st b).2 with
      | none => rw [hy] at hb2; cases hb2
      | some yb => simp [_frag2, hx, hy]
  | neq a b iha ihb =>
    rw [exprOK, Bool.and_eq_true] at hok
    obtain ⟨ha1, ha2⟩ := iha st hok.1 hcontains
    obtain ⟨hb1, hb2⟩ := ihb st hok.2 hcontains
    simp only [evalExpr]
    rw [ha1, hb1]
    refine ⟨rfl, ?_⟩
    cases hx : (evalExpr st a).2 with
    | none => rw [hx] at ha2; cases ha2
    | some xa =>
      cases hy : (evalExpr st b).2 with
      | none => rw [hy] at hb2; cases hb2
      | some yb => simp [_frag2, hx, hy]
  | gt a b iha ihb =>
    rw [exprOK, Bool.and_eq_true] at hok
    obtain ⟨ha1, ha2⟩ := iha st hok.1 hcontains
    obtain ⟨hb1, hb2⟩ := ihb st hok.2 hcontains
    simp only [evalExpr]
    rw [ha1, hb1]
    refine ⟨rfl, ?_⟩
    cases hx : (evalExpr st a).2 with
    | none => rw [hx] at ha2; cases ha2
    | some xa =>
      cases hy : (evalExpr st b).2 with
      | none => rw [hy] at hb2; cases hb2
      | some yb => simp [_frag2, hx, hy]
  | gte a b iha ihb =>
    rw [exprOK, Bool.and_eq_true] at hok
    obtain ⟨ha1, ha2⟩ := iha st hok.1 hcontains
    obtain ⟨hb1, hb2⟩ := ihb st hok.2 hcontains
    simp only [evalExpr]
    rw [ha1, hb1]
    refine ⟨rfl, ?_⟩
    cases hx : (evalExpr st a).2 with
    | none => rw [hx] at ha2; cases ha2
    | some xa =>
      cases hy : (evalExpr st b).2 with
      | none => rw [hy] at hb2; cases hb2
      | some yb => simp [_frag2, hx, hy]
  | lt a b iha ihb =>
    rw [exprOK, Bool.and_eq_true] at hok
    obtain ⟨ha1, ha2⟩ := iha st hok.1 hcontains
    obtain ⟨hb1, hb2⟩ := ihb st hok.2 hcontains
    simp only [evalExpr]
    rw [ha1, hb1]
    refine ⟨rfl, ?_⟩
    cases hx : (evalExpr st a).2 with
    | none => rw [hx] at ha2; cases ha2
    | some xa =>
      cases hy : (evalExpr st b).2 with
      | none => rw [hy] at hb2; cases hb2
      | some yb => simp [_frag2, hx, hy]
  | lte a b iha ihb =>
    rw [exprOK, Bool.and_eq_true] at hok
    obtain ⟨ha1, ha2⟩ := iha st hok.1 hcontains
    obtain ⟨hb1, hb2⟩ := ihb st hok.2 hcontains
    simp only [evalExpr]
    rw [ha1, hb1]
    refine ⟨rfl, ?_⟩
    cases hx : (evalExpr st a).2 with
    | none => rw [hx] at ha2; cases ha2
    | some xa =>
      cases hy : (evalExpr st b).2 with
      | none => rw [hy] at hb2; cases hb2
      | some yb => simp [_frag2, hx, hy]

/-! ## The set threaded by the checker is the set of assigned names -/

mutual
theorem stmtOK_mem : ∀ (S : List String) (s : Stmt) (k : String),
    k ∈ (stmtOK S s).2 ↔ k ∈ stmtAssigned s ∨ k ∈ S
  | S, .assign name e line, k => by
    simp [stmtOK, stmtAssigned]
  | S, .ifOnly c b, k => by
    simp only [stmtOK, stmtAssigned]
    exact stmtListOK_mem S b k
  | S, .ifElifElse c b e l, k => by
    simp only [stmtOK, stmtAssigned, List.mem_append]
    rw [stmtListOK_mem, elifsOK_mem, stmtListOK_mem]
    tauto
  | S, .ifElif c b e, k => by
    simp only [stmtOK, stmtAssigned, List.mem_append]
    rw [elifsOK_mem, stmtListOK_mem]
    tauto
  | S, .ifElse c b l, k => by
    simp only [stmtOK, stmtAssigned, List.mem_append]
    rw [stmtListOK_mem, stmtListOK_mem]
    tauto
  | S, .whileStmt c b, k => by
    simp only [stmtOK, stmtAssigned]
    exact stmtListOK_mem S b k
  | S, .breakStmt, k => by simp [stmtOK, stmtAssigned]
  | S, .ifMissingColon c line, k => by simp [stmtOK, stmtAssigned]
  | S, .genericError m, k => by simp [stmtOK, stmtAssigned]

theorem stmtListOK_mem : ∀ (S : List String) (l : StmtList) (k : String),
    k ∈ (stmtListOK S l).2 ↔ k ∈ stmtListAssigned l ∨ k ∈ S
  | S, .single s, k => by
    simp only [stmtListOK, stmtListAssigned]
    exact stmtOK_mem S s k
  | S, .snoc l s, k => by
    simp only [stmtListOK, stmtListAssigned, List.mem_append]
    rw [stmtOK_mem, stmtListOK_mem]
    tauto

theorem elifsOK_mem : ∀ (S : List String) (e : ElifBlock) (k : String),
    k ∈ (elifsOK S e).2 ↔ k ∈ elifsAssigned e ∨ k ∈ S
  | S, .one c b, k => by
    simp only [elifsOK, elifsAssigned]
    exact stmtListOK_mem S b k
  | S, .snoc rest c b, k => by
    simp only [elifsOK, elifsAssigned, List.mem_append]
    rw [stmtListOK_mem, elifsOK_mem]
    tauto
end

/-! ## Clean evaluation of statements: no diagnostics, table tracks
the checker's set of assigned names -/

mutual
theorem evalStmt_clean : ∀ (s : Stmt) (st : TState) (S : List String),
    (stmtOK S s).1 = true →
    WF st.symbols →
    (∀ k, hash_contains st.symbols k = true ↔ k ∈ S) →
    ((evalStmt st s).1._error = st._error ∧
      (evalStmt st s).1.diags = st.diags ∧
      (∃ f, (evalStmt st s).2 = .ok (some f)) ∧
      WF (evalStmt st s).1.symbols ∧
      (∀ k, hash_contains (evalStmt st s).1.symbols k = true ↔
        k ∈ (stmtOK S s).2))
  | .assign name e line, st, S, hok, hWF, hcont => by
    have hok' : exprOK S e = true := by simpa [stmtOK] using hok
    obtain ⟨h1, h2⟩ := evalExpr_clean e st S hok' hcont
    obtain ⟨f, hf⟩ := Option.isSome_iff_exists.mp h2
    simp only [evalStmt, stmtOK, h1, hf]
    refine ⟨trivial, trivial, ⟨name ++ " = " ++ f ++ ";\n", rfl⟩, ?_, ?_⟩
    · exact (hash_insert_spec st.symbols hWF name (some f)).2.1
    · intro k
      rw [contains_insert_iff st.symbols hWF name (some f) k, List.mem_cons,
        hcont k]
  | .ifOnly c b, st, S, hok, hWF, hcont => by
    have hok2 : exprOK S c = true ∧ (stmtListOK S b).1 = true := by
      simpa [stmtOK, Bool.and_eq_true] using hok
    obtain ⟨hc1, hc2⟩ := evalExpr_clean c st S hok2.1 hcont
    obtain ⟨cf, hcf⟩ := Option.isSome_iff_exists.mp hc2
    obtain ⟨hb1, hb2, hb3, hbWF, hbcont⟩ :=
      evalStmtList_clean b st S hok2.2 hWF hcont
    obtain ⟨bf, hbf⟩ := Option.isSome_iff_exists.mp hb3
    simp only [evalStmt, stmtOK, hc1]
    refine ⟨hb1, hb2, ?_, hbWF, hbcont⟩
    refine ⟨"if (" ++ cf ++ ") \x7b\n" ++ bf ++ "\x7d\n", ?_⟩
    simp [_frag2, hcf, hbf]
  | .ifElifElse c b e l, st, S, hok, hWF, hcont => by
    have hok2 : exprOK S c = true ∧ (stmtListOK S b).1 = true ∧
        (elifsOK (stmtListOK S b).2 e).1 = true ∧
        (stmtListOK (elifsOK (stmtListOK S b).2 e).2 l).1 = true := by
      simpa [stmtOK, Bool.and_eq_true, and_assoc] using hok
    obtain ⟨hc1, hc2⟩ := evalExpr_clean c st S hok2.1 hcont
    obtain ⟨cf, hcf⟩ := Option.isSome_iff_exists.mp hc2
    obtain ⟨hb1, hb2, hb3, hbWF, hbcont⟩ :=
      evalStmtList_clean b st S hok2.2.1 hWF hcont
    obtain ⟨bf, hbf⟩ := Option.isSome_iff_exists.mp hb3
    obtain ⟨he1, he2, he3, heWF, hecont⟩ :=
      evalElifs_clean e (evalStmtList st b).1 (stmtListOK S b).2
        hok2.2.2.1 hbWF hbcont
    obtain ⟨ef, hef⟩ := Option.isSome_iff_exists.mp he3
    obtain ⟨hl1, hl2, hl3, hlWF, hlcont⟩ :=
      evalStmtList_clean l (evalElifs (evalStmtList st b).1 e).1
        (elifsOK (stmtListOK S b).2 e).2 hok2.2.2.2 heWF hecont
    obtain ⟨lf, hlf⟩ := Option.isSome_iff_exists.mp hl3
    simp only [evalStmt, stmtOK, hc1]
    refine ⟨by rw [hl1, he1, hb1], by rw [hl2, he2, hb2], ?_, hlWF, hlcont⟩
    refine ⟨"if (" ++ cf ++ ") \x7b\n" ++ bf ++ "\x7d " ++ ef ++ " " ++
      ("else \x7b\n" ++ lf ++ "\x7d\n"), ?_⟩
    simp [_frag2, hcf, hbf, hef, hlf]
  | .ifElif c b e, st, S, hok, hWF, hcont => by
    have hok2 : exprOK S c = true ∧ (stmtListOK S b).1 = true ∧
        (elifsOK (stmtListOK S b).2 e).1 = true := by
      simpa [stmtOK, Bool.and_eq_true, and_assoc] using hok
    obtain ⟨hc1, hc2⟩ := evalExpr_clean c st S hok2.1 hcont
    obtain ⟨cf, hcf⟩ := Option.isSome_iff_exists.mp hc2
    obtain ⟨hb1, hb2, hb3, hbWF, hbcont⟩ :=
      evalStmtList_clean b st S hok2.2.1 hWF hcont
    obtain ⟨bf, hbf⟩ := Option.isSome_iff_exists.mp hb3
    obtain ⟨he1, he2, he3, heWF, hecont⟩ :=
      evalElifs_clean e (evalStmtList st b).1 (stmtListOK S b).2
        hok2.2.2 hbWF hbcont
    obtain ⟨ef, hef⟩ := Option.isSome_iff_exists.mp he3
    simp only [evalStmt, stmtOK, hc1]
    refine ⟨by rw [he1, hb1], by rw [he2, hb2], ?_, heWF, hecont⟩
    refine ⟨"if (" ++ cf ++ ") \x7b\n" ++ bf ++ "\x7d " ++ ef, ?_⟩
    simp [_frag2, hcf, hbf, hef]
  | .ifElse c b l, st, S, hok, hWF, hcont => by
    have hok2 : exprOK S c = true ∧ (stmtListOK S b).1 = true ∧
        (stmtListOK (stmtListOK S b).2 l).1 = true := by
      simpa [stmtOK, Bool.and_eq_true, and_assoc] using hok
    obtain ⟨hc1, hc2⟩ := evalExpr_clean c st S hok2.1 hcont
    obtain ⟨cf, hcf⟩ := Option.isSome_iff_exists.mp hc2
    obtain ⟨hb1, hb2, hb3, hbWF, hbcont⟩ :=
      evalStmtList_clean b st S hok2.2.1 hWF hcont
    obtain ⟨bf, hbf⟩ := Option.isSome_iff_exists.mp hb3
    obtain ⟨hl1, hl2, hl3, hlWF, hlcont⟩ :=
      evalStmtList_clean l (evalStmtList st b).1 (stmtListOK S b).2
        hok2.2.2 hbWF hbcont
    obtain ⟨lf, hlf⟩ := Option.isSome_iff_exists.mp hl3
    simp only [evalStmt, stmtOK, hc1]
    refine ⟨by rw [hl1, hb1], by rw [hl2, hb2], ?_, hlWF, hlcont⟩
    refine ⟨"if (" ++ cf ++ ") \x7b\n" ++ bf ++ "\x7d " ++
      ("else \x7b\n" ++ lf ++ "\x7d\n"), ?_⟩
    simp [_frag2, hcf, hbf, hlf]
  | .whileStmt c b, st, S, hok, hWF, hcont => by
    have hok2 : exprOK S c = true ∧ (stmtListOK S b).1 = true := by
      simpa [stmtOK, Bool.and_eq_true] using hok
    obtain ⟨hc1, hc2⟩ := evalExpr_clean c st S hok2.1 hcont
    obtain ⟨cf, hcf⟩ := Option.isSome_iff_exists.mp hc2
    obtain ⟨hb1, hb2, hb3, hbWF, hbcont⟩ :=
      evalStmtList_clean b st S hok2.2 hWF hcont
    obtain ⟨bf, hbf⟩ := Option.isSome_iff_exists.mp hb3
    simp only [evalStmt, stmtOK, hc1]
    refine ⟨hb1, hb2, ?_, hbWF, hbcont⟩
    refine ⟨"while (" ++ cf ++ ") \x7b\n" ++ bf ++ "\x7d\n", ?_⟩
    simp [_frag2, hcf, hbf]
  | .breakStmt, st, S, hok, hWF, hcont => by
    simp only [evalStmt, stmtOK]
    exact ⟨trivial, trivial, ⟨"break;\n", rfl⟩, hWF, hcont⟩
  | .ifMissingColon c line, st, S, hok, hWF, hcont => by
    simp [stmtOK] at hok
  | .genericError m, st, S, hok, hWF, hcont => by
    simp [stmtOK] at hok

theorem evalStmtList_clean : ∀ (l : StmtList) (st : TState) (S : List String),
    (stmtListOK S l).1 = true →
    WF st.symbols →
    (∀ k, hash_contains st.symbols k = true ↔ k ∈ S) →
    ((evalStmtList st l).1._error = st._error ∧
      (evalStmtList st l).1.diags = st.diags ∧
      (evalStmtList st l).2.isSome = true ∧
      WF (evalStmtList st l).1.symbols ∧
      (∀ k, hash_contains (evalStmtList st l).1.symbols k = true ↔
        k ∈ (stmtListOK S l).2))
  | .single s, st, S, hok, hWF, hcont => by
    have hok' : (stmtOK S s).1 = true := by simpa [stmtListOK] using hok
    obtain ⟨h1, h2, ⟨f, hf⟩, hWF', hcont'⟩ := evalStmt_clean s st S hok' hWF hcont
    simp only [evalStmtList, stmtListOK, hf]
    exact ⟨h1, h2, rfl, hWF', hcont'⟩
  | .snoc l s, st, S, hok, hWF, hcont => by
    have hok2 : (stmtListOK S l).1 = true ∧
        (stmtOK (stmtListOK S l).2 s).1 = true := by
      simpa [stmtListOK, Bool.and_eq_true] using hok
    obtain ⟨hl1, hl2, hl3, hlWF, hlcont⟩ :=
      evalStmtList_clean l st S hok2.1 hWF hcont
    obtain ⟨lf, hlf⟩ := Option.isSome_iff_exists.mp hl3
    obtain ⟨hs1, hs2, ⟨sf, hsf⟩, hsWF, hscont⟩ :=
      evalStmt_clean s (evalStmtList st l).1 (stmtListOK S l).2
        hok2.2 hlWF hlcont
    simp only [evalStmtList, stmtListOK, hlf, hsf]
    exact ⟨by rw [hs1, hl1], by rw [hs2, hl2], rfl, hsWF, hscont⟩

theorem evalElifs_clean : ∀ (e : ElifBlock) (st : TState) (S : List String),
    (elifsOK S e).1 = true →
    WF st.symbols →
    (∀ k, hash_contains st.symbols k = true ↔ k ∈ S) →
    ((evalElifs st e).1._error = st._error ∧
      (evalElifs st e).1.diags = st.diags ∧
      (evalElifs st e).2.isSome = true ∧
      WF (evalElifs st e).1.symbols ∧
      (∀ k, hash_contains (evalElifs st e).1.symbols k = true ↔
        k ∈ (elifsOK S e).2))
  | .one c b, st, S, hok, hWF, hcont => by
    have hok2 : exprOK S c = true ∧ (stmtListOK S b).1 = true := by
      simpa [elifsOK, Bool.and_eq_true] using hok
    obtain ⟨hc1, hc2⟩ := evalExpr_clean c st S hok2.1 hcont
    obtain ⟨cf, hcf⟩ := Option.isSome_iff_exists.mp hc2
    obtain ⟨hb1, hb2, hb3, hbWF, hbcont⟩ :=
      evalStmtList_clean b st S hok2.2 hWF hcont
    obtain ⟨bf, hbf⟩ := Option.isSome_iff_exists.mp hb3
    simp only [evalElifs, elifsOK, hc1, hcf, hbf]
    exact ⟨hb1, hb2, rfl, hbWF, hbcont⟩
  | .snoc rest c b, st, S, hok, hWF, hcont => by
    have hok2 : (elifsOK S rest).1 = true ∧
        exprOK (elifsOK S rest).2 c = true ∧
        (stmtListOK (elifsOK S rest).2 b).1 = true := by
      simpa [elifsOK, Bool.and_eq_true, and_assoc] using hok
    obtain ⟨hr1, hr2, hr3, hrWF, hrcont⟩ :=
      evalElifs_clean rest st S hok2.1 hWF hcont
    obtain ⟨rf, hrf⟩ := Option.isSome_iff_exists.mp hr3
    obtain ⟨hc1, hc2⟩ :=
      evalExpr_clean c (evalElifs st rest).1 (elifsOK S rest).2 hok2.2.1 hrcont
    obtain ⟨cf, hcf⟩ := Option.isSome_iff_exists.mp hc2
    obtain ⟨hb1, hb2, hb3, hbWF, hbcont⟩ :=
      evalStmtList_clean b (evalElifs st rest).1 (elifsOK S rest).2
        hok2.2.2 hrWF hrcont
    obtain ⟨bf, hbf⟩ := Option.isSome_iff_exists.mp hb3
    simp only [evalElifs, elifsOK, hc1, hrf, hcf, hbf]
    exact ⟨by rw [hb1, hr1], by rw [hb2, hr2], rfl, hbWF, hbcont⟩
end

/-! ## The failure flag is only ever set together with a diagnostic -/

theorem evalExpr_err_diag (e : Expr) : ∀ (st : TState),
    (st._error = true → st.diags ≠ []) →
    ((evalExpr st e).1._error = true → (evalExpr st e).1.diags ≠ []) := by
  induction e with
  | paren e ih => intro st h; simp only [evalExpr]; exact ih st h
  | plus a b iha ihb => intro st h; simp only [evalExpr]; exact ihb _ (iha st h)
  | minus a b iha ihb => intro st h; simp only [evalExpr]; exact ihb _ (iha st h)
  | times a b iha ihb => intro st h; simp only [evalExpr]; exact ihb _ (iha st h)
  | dividedby a b iha ihb => intro st h; simp only [evalExpr]; exact ihb _ (iha st h)
  | eq a b iha ihb => intro st h; simp only [evalExpr]; exact ihb _ (iha st h)
  | neq a b iha ihb => intro st h; simp only [evalExpr]; exact ihb _ (iha st h)
  | gt a b iha ihb => intro st h; simp only [evalExpr]; exact ihb _ (iha st h)
  | gte a b iha ihb => intro st h; simp only [evalExpr]; exact ihb _ (iha st h)
  | lt a b iha ihb => intro st h; simp only [evalExpr]; exact ihb _ (iha st h)
  | lte a b iha ihb => intro st h; simp only [evalExpr]; exact ihb _ (iha st h)
  | integer v => intro st h; exact h
  | float v => intro st h; exact h
  | boolean s => intro st h; exact h
  | ident name line =>
    intro st h
    simp only [evalExpr]
    by_cases hc : hash_contains st.symbols name
    · rw [if_pos hc]
      exact h
    · rw [if_neg hc]
      intro _
      simp

mutual
theorem evalStmt_err_diag : ∀ (s : Stmt) (st : TState),
    (st._error = true → st.diags ≠ []) →
    ((evalStmt st s).1._error = true → (evalStmt st s).1.diags ≠ [])
  | .assign name e line, st, h => by
    simp only [evalStmt]
    exact evalExpr_err_diag e st h
  | .ifOnly c b, st, h => by
    simp only [evalStmt]
    exact evalStmtList_err_diag b _ (evalExpr_err_diag c st h)
  | .ifElifElse c b e l, st, h => by
    simp only [evalStmt]
    exact evalStmtList_err_diag l _
      (evalElifs_err_diag e _ (evalStmtList_err_diag b _ (evalExpr_err_diag c st h)))
  | .ifElif c b e, st, h => by
    simp only [evalStmt]
    exact evalElifs_err_diag e _
      (evalStmtList_err_diag b _ (evalExpr_err_diag c st h))
  | .ifElse c b l, st, h => by
    simp only [evalStmt]
    exact evalStmtList_err_diag l _
      (evalStmtList_err_diag b _ (evalExpr_err_diag c st h))
  | .whileStmt c b, st, h => by
    simp only [evalStmt]
    exact evalStmtList_err_diag b _ (evalExpr_err_diag c st h)
  | .breakStmt, st, h => h
  | .ifMissingColon c line, st, h => by
    simp only [evalStmt]
    intro _
    simp
  | .genericError m, st, h => by
    simp only [evalStmt]
    intro _
    simp

theorem evalStmtList_err_diag : ∀ (l : StmtList) (st : TState),
    (st._error = true → st.diags ≠ []) →
    ((evalStmtList st l).1._error = true → (evalStmtList st l).1.diags ≠ [])
  | .single s, st, h => by
    simp only [evalStmtList]
    exact evalStmt_err_diag s st h
  | .snoc l s, st, h => by
    simp only [evalStmtList]
    exact evalStmt_err_diag s _ (evalStmtList_err_diag l st h)

theorem evalElifs_err_diag : ∀ (e : ElifBlock) (st : TState),
    (st._error = true → st.diags ≠ []) →
    ((evalElifs st e).1._error = true → (evalElifs st e).1.diags ≠ [])
  | .one c b, st, h => by
    simp only [evalElifs]
    exact evalStmtList_err_diag b _ (evalExpr_err_diag c st h)
  | .snoc rest c b, st, h => by
    simp only [evalElifs]
    exact evalStmtList_err_diag b _
      (evalExpr_err_diag c _ (evalElifs_err_diag rest st h))
end

theorem translateProgram_err_diag (prog : StmtList) :
    (translateProgram prog)._error = true → (translateProgram prog).diags ≠ [] := by
  have h := evalStmtList_err_diag prog initialTState (by intro hx; cases hx)
  simp only [translateProgram]
  exact h

/-! ## Appending statement lists: the body text is append-only -/

theorem _frag2_append_assoc (a b c : Option String) :
    _frag2 (_frag2 a b (fun x y => x ++ y)) c (fun x y => x ++ y) =
      _frag2 a (_frag2 b c (fun x y => x ++ y)) (fun x y => x ++ y) := by
  cases a <;> cases b <;> cases c <;> simp [_frag2, String.append_assoc]

theorem evalStmtList_append : ∀ (st : TState) (l r : StmtList),
    evalStmtList st (l.appendList r) =
      ((evalStmtList (evalStmtList st l).1 r).1,
        _frag2 (evalStmtList st l).2 (evalStmtList (evalStmtList st l).1 r).2
          (fun x y => x ++ y))
  | st, l, .single s => by simp [StmtList.appendList, evalStmtList]
  | st, l, .snoc r s => by
    simp [StmtList.appendList, evalStmtList, evalStmtList_append st l r,
      _frag2_append_assoc]

/-! ## The emitted declaration keys are the stored keys minus "program" -/

theorem _chain_find_some {key : String} {l : List (Association V)}
    {a : Association V} (h : _chain_find key l = some a) :
    a ∈ l ∧ key = a.key := by
  induction l with
  | nil => cases h
  | cons b rest ih =>
    by_cases hk : key = b.key
    · rw [_chain_find, if_pos hk] at h
      cases h
      exact ⟨List.mem_cons_self _ _, hk⟩
    · rw [_chain_find, if_neg hk] at h
      obtain ⟨hm, he⟩ := ih h
      exact ⟨List.mem_cons_of_mem _ hm, he⟩

theorem contains_iff_mem_flatten_keys (h : Hash V) (hWF : WF h) (k : String) :
    hash_contains h k = true ↔ k ∈ h.table.flatten.map (fun a => a.key) := by
  rw [contains_eq_isSome_get, hash_get_eq_flatten_find h hWF]
  cases hf : _chain_find k h.table.flatten with
  | none =>
    rw [_chain_find_eq_none] at hf
    constructor
    · intro hx
      cases hx
    · intro hmem
      obtain ⟨a, ha, hak⟩ := List.mem_map.mp hmem
      exact absurd hak.symm (hf a ha)
  | some a =>
    obtain ⟨hm, he⟩ := _chain_find_some hf
    constructor
    · intro _
      rw [he]
      exact List.mem_map_of_mem _ hm
    · intro _
      rfl

theorem mem_emitDeclKeys (h : Hash (Option String)) (hWF : WF h) (k : String) :
    k ∈ emitDeclKeys h ↔ (hash_contains h k = true ∧ k ≠ "program") := by
  rw [emitDeclKeys, hash_iter_drain_eq_flatten, List.mem_filter, List.map_map]
  have hcomp : Prod.fst ∘ (fun a : Association (Option String) => (a.key, a.value)) =
      fun a => a.key := rfl
  rw [hcomp, contains_iff_mem_flatten_keys h hWF]
  simp

/-! ## Facts about the 641-key insertion sequence -/

theorem _char_ofNat_toNat {a : Nat} (ha : a < 55296) : (Char.ofNat a).toNat = a := by
  unfold Char.ofNat
  rw [dif_pos (Or.inl (by omega))]
  simp [Char.toNat, Char.ofNatAux, UInt32.toNat, BitVec.toNat_ofNatLt]

theorem dupKeys_keys_nodup : (dupKeys.map Prod.fst).Nodup := by
  rw [dupKeys, List.map_map]
  have hcomp : (Prod.fst ∘ fun i => (String.mk [Char.ofNat (i + 1)], (0 : Nat))) =
      fun i => String.mk [Char.ofNat (i + 1)] := rfl
  rw [hcomp]
  refine (List.nodup_range 641).map_on ?_
  intro x hx y hy hxy
  rw [List.mem_range] at hx hy
  have hc : Char.ofNat (x + 1) = Char.ofNat (y + 1) := by
    have := congrArg String.data hxy
    simpa using this
  have h1 : (Char.ofNat (x + 1)).toNat = x + 1 := _char_ofNat_toNat (by omega)
  have h2 : (Char.ofNat (y + 1)).toNat = y + 1 := _char_ofNat_toNat (by omega)
  rw [hc, h2] at h1
  omega

theorem dupKeys_length : dupKeys.length = 641 := by
  rw [dupKeys, List.length_map, List.length_range]

theorem runInserts_num_le_length (ops : List (String × V)) :
    (runInserts ops).num_elems ≤ ops.length := by
  induction ops using List.reverseRecOn with
  | nil => exact Nat.le_refl 0
  | append_singleton l p ih =>
    rw [runInserts_append_singleton]
    obtain ⟨_, _, _, hnum⟩ := hash_insert_spec (runInserts l) (WF_runInserts l) p.1 p.2
    rw [hnum, List.length_append, List.length_singleton]
    by_cases hc : hash_contains (runInserts l) p.1 <;> simp [hc] <;> omega

theorem dupKeys_num_elems : (runInserts dupKeys).num_elems = 641 := by
  rw [runInserts_num_nodup dupKeys dupKeys_keys_nodup, dupKeys_length]

/-- As long as no more than `5 * 128 + 1` insertions have happened,
the pre-insert counts never exceed `5 * 128`, so the capacity is still
the initial one. -/
theorem runInserts_capacity_initial (ops : List (String × V))
    (hlen : ops.length ≤ 5 * INITIAL_CAPACITY + 1) :
    (runInserts ops).capacity = INITIAL_CAPACITY := by
  obtain ⟨⟨j, hcap⟩, _h2, h3, _h4⟩ := _run_capacity_spec ops
  have hIC : INITIAL_CAPACITY = 128 := rfl
  have hge : INITIAL_CAPACITY ≤ (runInserts ops).capacity := by
    rw [hcap, hIC]
    have h1 : 128 * 1 ≤ 128 * 2 ^ j := Nat.mul_le_mul_left _ Nat.one_le_two_pow
    omega
  by_cases hgt : INITIAL_CAPACITY < (runInserts ops).capacity
  · exfalso
    obtain ⟨i, hi, hbig⟩ := h3 INITIAL_CAPACITY ⟨0, by norm_num⟩ hgt
    have hle : (runInserts (ops.take i)).num_elems ≤ i := by
      calc (runInserts (ops.take i)).num_elems ≤ (ops.take i).length :=
            runInserts_num_le_length _
        _ ≤ i := by rw [List.length_take]; omega
    have hTHR : LOAD_FACTOR_THR = 5 := rfl
    rw [hTHR, hIC] at hbig
    rw [hIC] at hlen
    omega
  · omega

theorem dupKeys_capacity : (runInserts dupKeys).capacity = 128 :=
  runInserts_capacity_initial dupKeys (by rw [dupKeys_length]; norm_num [INITIAL_CAPACITY])

theorem contains_pos_capacity (h : Hash V) (k : String)
    (hc : hash_contains h k = true) : 0 < h.capacity := by
  by_contra hcap
  push_neg at hcap
  have hnil : h.table = [] := List.length_eq_zero.mp (by
    rw [show h.table.length = h.capacity from rfl]
    omega)
  rw [hash_contains, hnil] at hc
  simp [List.getD, _chain_find] at hc

/-! # The claims -/

/-- C4: for every finite sequence of `hash_insert` calls on a freshly
created table, possibly with duplicate keys, a subsequent `hash_get`
for each key returns the value of the most recent insertion with that
key, and `hash_get` for any key never inserted returns the absent
marker `none` (NULL). -/
theorem claim_C4 {V : Type} (ops : List (String × V)) (k : String) :
    hash_get (runInserts ops) k = lastInserted ops k ∧
      (k ∉ ops.map Prod.fst → hash_get (runInserts ops) k = none) := by
  refine ⟨runInserts_get ops k, ?_⟩
  intro hmem
  rw [runInserts_get ops k]
  exact (lastInserted_eq_none_iff ops k).mpr hmem

theorem claim_C4_witness :
    hash_get (runInserts [("a", 1), ("b", 2), ("a", 3)]) "a" = some 3 ∧
      ("c" ∉ ([("a", 1), ("b", 2), ("a", 3)] : List (String × Nat)).map Prod.fst ∧
        hash_get (runInserts [("a", 1), ("b", 2), ("a", 3)]) "c" = none) := by
  refine ⟨(claim_C4 [("a", 1), ("b", 2), ("a", 3)] "a").1.trans (by decide),
    by decide, (claim_C4 [("a", 1), ("b", 2), ("a", 3)] "c").2 (by decide)⟩

/-- C5: the resize check runs before each insert — when the load
factor exceeds the threshold the capacity doubles and every stored
association is rehashed (lookups are preserved) — and consequently,
for every insertion sequence, the final capacity is a power-of-two
multiple of the initial capacity, minimal among those for which the
load factor never exceeded the threshold at any insertion point. -/
theorem claim_C5 {V : Type} (ops : List (String × V)) :
    (∀ (h : Hash V) (k : String) (v : V), WF h →
      _hash_load_factor h > (LOAD_FACTOR_THR : ℚ) →
      (hash_insert h k v).capacity = h.capacity * 2 ∧
        (∀ k', hash_get (_hash_resize h) k' = hash_get h k')) ∧
      (∃ j : Nat, (runInserts ops).capacity = INITIAL_CAPACITY * 2 ^ j) ∧
      (∀ i, i < ops.length →
        ((runInserts (ops.take i)).num_elems : ℚ) /
          ((runInserts ops).capacity : ℚ) ≤ (LOAD_FACTOR_THR : ℚ)) ∧
      (∀ c : Nat, (∃ j : Nat, c = INITIAL_CAPACITY * 2 ^ j) →
        (∀ i, i < ops.length →
          ((runInserts (ops.take i)).num_elems : ℚ) / (c : ℚ) ≤
            (LOAD_FACTOR_THR : ℚ)) →
        (runInserts ops).capacity ≤ c) := by
  obtain ⟨⟨j, hcap⟩, h2, h3, _h4⟩ := _run_capacity_spec ops
  have hIC : INITIAL_CAPACITY = 128 := rfl
  have hcappos : 0 < (runInserts ops).capacity := (WF_runInserts ops).1
  refine ⟨?_, ⟨j, hcap⟩, ?_, ?_⟩
  · intro h k v hWF hg
    obtain ⟨_, _, hc, _⟩ := hash_insert_spec h hWF k v
    exact ⟨by rw [hc, if_pos hg], (_hash_resize_spec h hWF).1⟩
  · intro i hi
    rw [div_le_iff₀ (by exact_mod_cast hcappos)]
    have := h2 i hi
    exact_mod_cast this
  · intro c hcpow hall
    by_contra hlt
    push_neg at hlt
    obtain ⟨i, hi, hgt⟩ := h3 c hcpow hlt
    have hcpos : 0 < c := by
      obtain ⟨j', rfl⟩ := hcpow
      have : INITIAL_CAPACITY * 1 ≤ INITIAL_CAPACITY * 2 ^ j' :=
        Nat.mul_le_mul_left _ Nat.one_le_two_pow
      rw [hIC] at this ⊢
      omega
    have hle := hall i hi
    rw [div_le_iff₀ (by exact_mod_cast hcpos)] at hle
    have hle2 : (runInserts (ops.take i)).num_elems ≤ LOAD_FACTOR_THR * c := by
      exact_mod_cast hle
    omega

theorem claim_C5_witness :
    (∃ j : Nat, (runInserts [("a", (1 : Nat))]).capacity =
      INITIAL_CAPACITY * 2 ^ j) ∧
      (runInserts [("a", (1 : Nat))]).capacity ≤ INITIAL_CAPACITY := by
  refine ⟨(claim_C5 [("a", (1 : Nat))]).2.1,
    (claim_C5 [("a", (1 : Nat))]).2.2.2 INITIAL_CAPACITY ⟨0, by norm_num⟩ ?_⟩
  intro i hi
  have hi0 : i = 0 := by
    simp only [List.length_singleton] at hi
    omega
  subst hi0
  have h0 : (runInserts (([("a", (1 : Nat))]).take 0)).num_elems = 0 := rfl
  rw [h0]
  norm_num

/-- C9: for a fixed table, draining a freshly created iterator with
`hash_iter_next` enumerates the deterministic sequence given by
ascending bucket order, each chain from its head; two passes over the
same unmutated table therefore yield identical sequences. -/
theorem claim_C9 {V : Type} (h : Hash V) (pass1 pass2 : List (String × V))
    (h1 : pass1 = hash_iter_drain h) (h2 : pass2 = hash_iter_drain h) :
    pass1 = pass2 ∧
      pass1 = h.table.flatten.map (fun a => (a.key, a.value)) := by
  subst h1 h2
  exact ⟨rfl, hash_iter_drain_eq_flatten h⟩

theorem claim_C9_witness :
    hash_iter_drain (runInserts [("a", (1 : Nat))]) =
      (runInserts [("a", (1 : Nat))]).table.flatten.map
        (fun a => (a.key, a.value)) :=
  (claim_C9 (runInserts [("a", (1 : Nat))]) _ _ rfl rfl).2

set_option maxRecDepth 1000000 in
/-- C10 counterexample: after inserting 641 distinct keys the table
(reachably) holds 641 elements in 128 buckets, so the load factor
exceeds the threshold and the next `hash_insert` — here with a key
already present — doubles the capacity: the duplicate insertion itself
triggers a resize and changes the capacity, contradicting the claim's
frame. -/
theorem claim_C10_counterexample :
    hash_contains (runInserts dupKeys) dupKey0 = true ∧
      (runInserts dupKeys).capacity = 128 ∧
      (hash_insert (runInserts dupKeys) dupKey0 0).capacity = 256 := by
  have hcontains : hash_contains (runInserts dupKeys) dupKey0 = true := by
    rw [runInserts_contains]
    decide
  have hguard : _hash_load_factor (runInserts dupKeys) > (LOAD_FACTOR_THR : ℚ) := by
    rw [_load_factor_gt_iff (runInserts dupKeys) (by rw [dupKeys_capacity]; omega),
      dupKeys_capacity, dupKeys_num_elems]
    norm_num [LOAD_FACTOR_THR]
  obtain ⟨_, _, hcap', _⟩ :=
    hash_insert_spec (runInserts dupKeys) (WF_runInserts dupKeys) dupKey0 0
  refine ⟨hcontains, dupKeys_capacity, ?_⟩
  rw [hcap', if_pos hguard, dupKeys_capacity]

/-- C10 amended: for every table and key already present in it,
provided the load factor does not exceed the threshold at the moment
of insertion (so the pre-insert resize check, which runs on every
insert including duplicates, does not fire), `hash_insert` updates
only that association's value: element count, capacity, every stored
key, and every other key's association are unchanged, and no resize
occurs. -/
theorem claim_C10_amended {V : Type} (h : Hash V) (k : String) (v : V)
    (hc : hash_contains h k = true)
    (hg : ¬(_hash_load_factor h > (LOAD_FACTOR_THR : ℚ))) :
    hash_insert h k v = _hash_insert_no_resize h k v ∧
      (hash_insert h k v).num_elems = h.num_elems ∧
      (hash_insert h k v).capacity = h.capacity ∧
      (∀ i, ((hash_insert h k v).table.getD i []).map (fun a => a.key) =
        (h.table.getD i []).map (fun a => a.key)) ∧
      hash_get (hash_insert h k v) k = some v ∧
      (∀ k', k' ≠ k → hash_get (hash_insert h k v) k' = hash_get h k') := by
  have hins : hash_insert h k v = _hash_insert_no_resize h k v := by
    simp only [hash_insert, if_neg hg]
  have hcappos : 0 < h.capacity := contains_pos_capacity h k hc
  have hlt : _bucket_idx h.capacity k < h.table.length := _bucket_idx_lt _ _ hcappos
  have hfind : _chain_find k (h.table.getD (_bucket_idx h.capacity k) []) ≠ none := by
    rw [hash_contains] at hc
    intro hn
    rw [hn] at hc
    cases hc
  have hupdate : _chain_update k v (h.table.getD (_bucket_idx h.capacity k) []) ≠
      none := fun hn => hfind (_chain_update_eq_none.mp hn)
  obtain ⟨chain2, hchain2⟩ := Option.ne_none_iff_exists'.mp hupdate
  refine ⟨hins, ?_, ?_, ?_, ?_, ?_⟩
  · rw [hins, num_elems_insert_no_resize, if_pos hc]
  · rw [hins, capacity_insert_no_resize]
  · intro i
    rw [hins, _insert_table_update hchain2]
    by_cases hi : i = _bucket_idx h.capacity k
    · subst hi
      rw [_getD_set_self hlt, _chain_update_keys hchain2]
    · rw [_getD_set_ne (fun e => hi e.symm)]
  · rw [hins, hash_get_insert_no_resize h hcappos k v k, if_pos rfl]
  · intro k' hk'
    rw [hins, hash_get_insert_no_resize h hcappos k v k', if_neg hk']

theorem claim_C10_witness :
    hash_contains (runInserts [("x", (0 : Nat))]) "x" = true ∧
      ¬(_hash_load_factor (runInserts [("x", (0 : Nat))]) >
        (LOAD_FACTOR_THR : ℚ)) ∧
      (hash_insert (runInserts [("x", (0 : Nat))]) "x" 7).num_elems =
        (runInserts [("x", (0 : Nat))]).num_elems ∧
      (hash_insert (runInserts [("x", (0 : Nat))]) "x" 7).capacity =
        (runInserts [("x", (0 : Nat))]).capacity ∧
      hash_get (hash_insert (runInserts [("x", (0 : Nat))]) "x" 7) "x" = some 7 := by
  have hc : hash_contains (runInserts [("x", (0 : Nat))]) "x" = true := by
    rw [runInserts_contains]
    decide
  have hcapx : (runInserts [("x", (0 : Nat))]).capacity = INITIAL_CAPACITY :=
    runInserts_capacity_initial _ (by norm_num [INITIAL_CAPACITY])
  have hnumx : (runInserts [("x", (0 : Nat))]).num_elems = 1 := by
    rw [runInserts_num_nodup _ (by decide)]
    rfl
  have hg : ¬(_hash_load_factor (runInserts [("x", (0 : Nat))]) >
      (LOAD_FACTOR_THR : ℚ)) := by
    rw [_load_factor_gt_iff _ (by rw [hcapx]; norm_num [INITIAL_CAPACITY]),
      hcapx, hnumx]
    norm_num [INITIAL_CAPACITY, LOAD_FACTOR_THR]
  obtain ⟨_, h2, h3, _, h5, _⟩ := claim_C10_amended (runInserts [("x", (0 : Nat))])
    "x" 7 hc hg
  exact ⟨hc, hg, h2, h3, h5⟩

/-- C3 counterexample: the INTEGER action is an unconditional
`asprintf("%g", $1)`, so the integral numeric literal token 5 renders
as "5", not "5.0" — the claim's "exactly one decimal place for a value
equal to its own integer truncation" holds only for FLOAT tokens. -/
theorem claim_C3_counterexample :
    _render_INTEGER 5 = "5" ∧ _render_INTEGER 5 ≠ "5.0" := by
  constructor <;> decide

/-- C3 amended: a FLOAT token whose value equals its own integer
truncation renders with exactly one decimal place; every other FLOAT
token and every INTEGER token (even integral ones, such as 5 → "5")
renders in the general shortest `%g` representation; the boolean
literals True and False render as "1" and "0". -/
theorem claim_C3_amended :
    (∀ v : ℚ, v.den = 1 → _render_FLOAT v = toString v.num ++ ".0") ∧
      (∀ v : ℚ, v.den ≠ 1 → _render_FLOAT v = _fmt_g v) ∧
      _render_FLOAT 5 = "5.0" ∧
      _render_FLOAT (mkRat 21 4) = "5.25" ∧
      _render_INTEGER 5 = "5" ∧
      _render_BOOLEAN "True" = "1" ∧
      _render_BOOLEAN "False" = "0" := by
  refine ⟨?_, ?_, by decide, by decide, by decide, by decide, by decide⟩
  · intro v hv
    rw [_render_FLOAT, if_pos hv, _fmt_f1]
  · intro v hv
    rw [_render_FLOAT, if_neg hv]

theorem claim_C3_witness :
    (5 : ℚ).den = 1 ∧ _render_FLOAT 5 = toString (5 : ℚ).num ++ ".0" :=
  ⟨by decide, claim_C3_amended.1 5 (by decide)⟩

/-- C6: an expression referencing an identifier with no prior
assignment in the symbol table emits the semantic diagnostic
"Error: Invalid Symbol (<name>) on line <N>", sets the failure flag,
and is non-fatal to the parse: the reduction returns normally
(fragment unset), and an enclosing assignment statement still reduces
with `.ok` (no YYERROR), so parsing continues with later statements. -/
theorem claim_C6 (st : TState) (name : String) (line : Nat)
    (hc : hash_contains st.symbols name = false) :
    evalExpr st (.ident name line) =
      ({ st with
          diags := st.diags ++
            ["Error: Invalid Symbol (" ++ name ++ ") on line " ++ toString line],
          _error := true }, none) ∧
      (∀ x ln, (evalStmt st (.assign x (.ident name line) ln)).2 = .ok none) := by
  have hc' : ¬(hash_contains st.symbols name = true) := by
    rw [hc]
    simp
  constructor
  · simp only [evalExpr, if_neg hc']
  · intro x ln
    simp only [evalStmt, evalExpr, if_neg hc']
    rfl

set_option maxRecDepth 1000000 in
theorem claim_C6_witness :
    hash_contains initialTState.symbols "y" = false ∧
      evalExpr initialTState (.ident "y" 1) =
        ({ initialTState with
            diags := ["Error: Invalid Symbol (y) on line 1"],
            _error := true }, none) := by
  have hc : hash_contains initialTState.symbols "y" = false := by decide
  refine ⟨hc, ?_⟩
  rw [(claim_C6 initialTState "y" 1 hc).1]
  rfl

/-- C7: the synthesized program body is an append-only concatenation
in source order — the text of a prefix of the statement list is
computed from that prefix alone and is untouched by anything that
follows, reassignments included — while a reassignment overwrites the
symbol-table entry (last write wins): a lookup right after it sees the
new fragment, every other key is unchanged, so only expression lookups
occurring after the reassignment see the new value. -/
theorem claim_C7 (st : TState) (l r : StmtList) (n : String) (e : Expr) (ln : Nat)
    (hWF : WF st.symbols) :
    (evalStmtList st (l.appendList r) =
      ((evalStmtList (evalStmtList st l).1 r).1,
        _frag2 (evalStmtList st l).2 (evalStmtList (evalStmtList st l).1 r).2
          (fun x y => x ++ y))) ∧
      hash_get (evalStmt st (.assign n e ln)).1.symbols n =
        some (evalExpr st e).2 ∧
      (∀ k, k ≠ n → hash_get (evalStmt st (.assign n e ln)).1.symbols k =
        hash_get st.symbols k) := by
  have hsym : (evalExpr st e).1.symbols = st.symbols := evalExpr_symbols st e
  have hWF2 : WF (evalExpr st e).1.symbols := by
    rw [hsym]
    exact hWF
  obtain ⟨hget, _, _, _⟩ :=
    hash_insert_spec (evalExpr st e).1.symbols hWF2 n (evalExpr st e).2
  refine ⟨evalStmtList_append st l r, ?_, ?_⟩
  · show hash_get (hash_insert (evalExpr st e).1.symbols n (evalExpr st e).2) n =
      some (evalExpr st e).2
    rw [hget n, if_pos rfl]
  · intro k hk
    show hash_get (hash_insert (evalExpr st e).1.symbols n (evalExpr st e).2) k =
      hash_get st.symbols k
    rw [hget k, if_neg hk, hsym]

theorem claim_C7_witness :
    WF initialTState.symbols ∧
      hash_get (evalStmt initialTState (.assign "x" (.integer 6) 2)).1.symbols "x" =
        some (some "6") := by
  have hWF : WF initialTState.symbols := WF_hash_create (Option String)
  refine ⟨hWF, ?_⟩
  rw [(claim_C7 initialTState (.single .breakStmt) (.single .breakStmt)
    "x" (.integer 6) 2 hWF).2.1]
  decide

set_option maxRecDepth 1000000 in
/-- C8 counterexample: on the input `if x > 5` plus newline, the
expression `x > 5` reduces before the `IF expression NEWLINE` error
production, and `x` is undefined, so the run emits two diagnostics,
not exactly one. -/
theorem claim_C8_counterexample :
    (translateProgram progC8).diags =
      ["Error: Invalid Symbol (x) on line 1",
        "Error: Missing colon after 'if' statement on line 1"] ∧
      (translateProgram progC8).diags.length ≠ 1 := by
  constructor <;> decide

set_option maxRecDepth 1000000 in
/-- C8 amended: the malformed input `if x > 5` followed by a newline
yields exactly two diagnostics — "Error: Invalid Symbol (x) on line 1"
(the identifier is checked when the expression reduces, before the
error production fires) and then
"Error: Missing colon after 'if' statement on line 1" — and produces
zero bytes of program text with a nonzero status, whatever the final
parse outcome. -/
theorem claim_C8_amended :
    (translateProgram progC8).diags =
      ["Error: Invalid Symbol (x) on line 1",
        "Error: Missing colon after 'if' statement on line 1"] ∧
      (∀ accepted, runMain accepted (translateProgram progC8) = ("", 1)) := by
  constructor
  · decide
  · intro a
    have he : (translateProgram progC8)._error = true := by decide
    rw [runMain, he]
    cases a <;> rfl

set_option maxRecDepth 1000000 in
/-- C2 counterexample: a generic syntax error that bison recovers from
is reported through `yyerror`, which prints the diagnostic but never
sets `_error`; if the rest of the parse is clean the engine reaches
its accepting state with the flag unset, and the run emits program
text with exit status 0 even though a diagnostic fired. -/
theorem claim_C2_counterexample :
    (translateProgram progC2).diags ≠ [] ∧
      (runMain true (translateProgram progC2)).2 = 0 ∧
      (runMain true (translateProgram progC2)).1 ≠ "" := by
  refine ⟨by decide, ?_, by decide⟩
  have he : (translateProgram progC2)._error = false := by decide
  rw [runMain, he]
  rfl

/-- C2 amended: the emitter runs iff the parse reached the accepting
state with the failure flag unset; the flag is only ever set together
with an emitted diagnostic; when the flag is set, or the parse did not
accept, the run prints zero bytes of program text and returns status
1; when the parse accepted with the flag unset it prints the full
program text and returns status 0.  (Diagnostics from the dedicated
error productions and from semantic identifier checks set the flag; a
generic syntax diagnostic reported via `yyerror` does not, so a
recovered generic error does not suppress emission.) -/
theorem claim_C2_amended (prog : StmtList) (accepted : Bool) :
    ((runMain accepted (translateProgram prog)).2 = 0 ↔
      (accepted = true ∧ (translateProgram prog)._error = false)) ∧
      ((translateProgram prog)._error = true →
        (translateProgram prog).diags ≠ []) ∧
      ((translateProgram prog)._error = true →
        runMain accepted (translateProgram prog) = ("", 1)) ∧
      (accepted = true → (translateProgram prog)._error = false →
        runMain accepted (translateProgram prog) =
          (emitText (translateProgram prog).symbols, 0)) := by
  refine ⟨?_, translateProgram_err_diag prog, ?_, ?_⟩
  · rw [runMain]
    cases accepted <;> cases he : (translateProgram prog)._error <;> simp [he]
  · intro he
    rw [runMain, he]
    cases accepted <;> rfl
  · intro ha he
    rw [runMain, ha, he]
    rfl

set_option maxRecDepth 1000000 in
theorem claim_C2_witness :
    (translateProgram progC2)._error = false ∧
      (runMain true (translateProgram progC2)).2 = 0 := by
  have hf : (translateProgram progC2)._error = false := by decide
  exact ⟨hf, (claim_C2_amended progC2 true).1.mpr ⟨rfl, hf⟩⟩

/-- C1: for every input built only from sequential assignments,
conditional chains, while loops and break, in which every identifier
referenced in an expression has a prior assignment, translation
succeeds (status 0, the full program text is emitted) and the set of
identifiers declared in the emitted output equals the set of
identifiers assigned anywhere in the input, excluding the reserved key
"program" — no extra declarations and none missing. -/
theorem claim_C1 (prog : StmtList) (hok : (stmtListOK [] prog).1 = true) :
    (runMain true (translateProgram prog)).2 = 0 ∧
      (runMain true (translateProgram prog)).1 =
        emitText (translateProgram prog).symbols ∧
      (∀ name, name ∈ emitDeclKeys (translateProgram prog).symbols ↔
        (name ∈ stmtListAssigned prog ∧ name ≠ "program")) := by
  have hinit_cont : ∀ k, hash_contains initialTState.symbols k = true ↔
      k ∈ ([] : List String) := by
    intro k
    rw [show initialTState.symbols = hash_create (Option String) from rfl,
      hash_contains_create]
    simp
  obtain ⟨h1, _h2, _h3, hWF', hcont'⟩ :=
    evalStmtList_clean prog initialTState [] hok
      (WF_hash_create (Option String)) hinit_cont
  have hsym : (translateProgram prog).symbols =
      hash_insert (evalStmtList initialTState prog).1.symbols "program"
        (evalStmtList initialTState prog).2 := rfl
  have herr : (translateProgram prog)._error = false := by
    show (evalStmtList initialTState prog).1._error = false
    rw [h1]
    rfl
  have hWFf : WF (translateProgram prog).symbols := by
    rw [hsym]
    exact (hash_insert_spec _ hWF' _ _).2.1
  have hcontf : ∀ k, hash_contains (translateProgram prog).symbols k = true ↔
      (k = "program" ∨ k ∈ (stmtListOK [] prog).2) := by
    intro k
    rw [hsym, contains_insert_iff _ hWF' _ _ k, hcont' k]
  refine ⟨?_, ?_, ?_⟩
  · rw [runMain, herr]
    rfl
  · rw [runMain, herr]
    rfl
  · intro name
    rw [mem_emitDeclKeys _ hWFf name, hcontf name, stmtListOK_mem]
    simp only [List.not_mem_nil, or_false]
    constructor
    · rintro ⟨hin | hin, hne⟩
      · exact absurd hin hne
      · exact ⟨hin, hne⟩
    · rintro ⟨hin, hne⟩
      exact ⟨Or.inr hin, hne⟩

theorem claim_C1_witness :
    (stmtListOK [] progC1demo).1 = true ∧
      (runMain true (translateProgram progC1demo)).2 = 0 ∧
      ("x" ∈ emitDeclKeys (translateProgram progC1demo).symbols ↔
        ("x" ∈ stmtListAssigned progC1demo ∧ "x" ≠ "program")) := by
  have hok : (stmtListOK [] progC1demo).1 = true := by decide
  obtain ⟨h1, _h2, h3⟩ := claim_C1 progC1demo hok
  exact ⟨hok, h1, h3 "x"⟩

end CS480
